import Mathlib

/-!
Shallow embedding of the boggle solver (src/board.rs, src/trie.rs,
src/multivec.rs, src/error.rs).  Bytes are modelled as `Nat`; a `&str`
input is modelled by the list of its lines, each a list of bytes (the
result of Rust's `str::lines` / `str::as_bytes`).  Fallible code returns
`Except`/`Option`; the stack-driven searches are modelled with explicit
stacks (fuel-indexed where Rust relies on loop termination, returning
`none` when the fuel runs out so that a `some` result is a faithful run).
-/

namespace Boggle

/-- Mirrors `multivec.rs` `Vec2<bool>`: a flat row-major store with
`idx (x, y) = x + y * width`, out-of-bounds access modelled as a no-op
read of `false` (Rust panics there; in-bounds behaviour coincides). -/
structure Vec2 where
  height : Nat
  width : Nat
  data : List Bool
deriving Repr, DecidableEq

/-- Mirrors `Vec2::idx`. -/
def Vec2.idx (v : Vec2) (x y : Nat) : Option Nat :=
  if x ≥ v.width ∨ y ≥ v.height then none else some (x + y * v.width)

/-- Mirrors `Vec2::fill`. -/
def Vec2.fill (width height : Nat) (value : Bool) : Vec2 :=
  ⟨height, width, List.replicate (width * height) value⟩

/-- Mirrors `Index for Vec2` (`expect` is modelled by the `false` default;
all in-code uses are in bounds). -/
def Vec2.get (v : Vec2) (x y : Nat) : Bool :=
  match v.idx x y with
  | none => false
  | some i => (v.data.get? i).getD false

/-- Mirrors `IndexMut for Vec2`. -/
def Vec2.set (v : Vec2) (x y : Nat) (value : Bool) : Vec2 :=
  match v.idx x y with
  | none => v
  | some i => ⟨v.height, v.width, v.data.set i value⟩

/-- Mirrors `multivec.rs` `Vec3<bool>`: `idx (x, y, z) =
height * width * z + width * y + x`. -/
structure Vec3 where
  height : Nat
  depth : Nat
  width : Nat
  data : List Bool
deriving Repr, DecidableEq

/-- Mirrors `Vec3::idx`. -/
def Vec3.idx (v : Vec3) (x y z : Nat) : Option Nat :=
  if z ≥ v.depth ∨ x ≥ v.width ∨ y ≥ v.height then none
  else some (v.height * v.width * z + v.width * y + x)

/-- Mirrors `Vec3::fill`. -/
def Vec3.fill (width height depth : Nat) (value : Bool) : Vec3 :=
  ⟨height, depth, width, List.replicate (width * height * depth) value⟩

/-- Mirrors `Index for Vec3`. -/
def Vec3.get (v : Vec3) (x y z : Nat) : Bool :=
  match v.idx x y z with
  | none => false
  | some i => (v.data.get? i).getD false

/-- Mirrors `IndexMut for Vec3`. -/
def Vec3.set (v : Vec3) (x y z : Nat) (value : Bool) : Vec3 :=
  match v.idx x y z with
  | none => v
  | some i => ⟨v.height, v.depth, v.width, v.data.set i value⟩

/-- Mirrors `error.rs` `Error` (the `io::Error` payload is irrelevant to
the core and dropped). -/
inductive Error where
  | Usage : Error
  | Io : Error
  | BoardSize : String → Error
deriving Repr, DecidableEq

/-- Mirrors `board.rs` `Board`: the rows (as byte lists) and the 26-entry
letter-membership array. -/
structure Board where
  board : List (List Nat)
  letters : List Bool
deriving Repr, DecidableEq

/-- The letter-membership array built in `Board::parse`:
`letters[(c - b'a') as usize] = true` for every byte of the grid.
(Nat subtraction truncates where Rust would panic on a non-lowercase
byte; all parsed boards in scope are lowercase ASCII.) -/
def mkLetters (lines : List (List Nat)) : List Bool :=
  lines.foldl (fun acc row => row.foldl (fun a c => a.set (c - 97) true) acc)
    (List.replicate 26 false)

/-- Mirrors `Board::parse`.  The argument is the list of lines of the raw
input (each line as its bytes); the `assert!(raw.is_ascii())` is a
precondition of the modelled domain. -/
def Board.parse (lines : List (List Nat)) : Except Error Board :=
  if lines.any (fun l => l.length != lines.length) then
    Except.error (Error.BoardSize ("unequal row and column sizes"))
  else
    Except.ok { board := lines, letters := mkLetters lines }

/-- Mirrors `Board::len`. -/
def Board.len (b : Board) : Nat := b.board.length

/-- Mirrors `Board::get` (signed coordinates, `None` out of bounds). -/
def Board.get (b : Board) (x y : Int) : Option Nat :=
  if x < 0 ∨ x ≥ (b.len : Int) ∨ y < 0 ∨ y ≥ (b.len : Int) then none
  else (b.board.get? x.toNat).bind (fun r => r.get? y.toNat)

/-- Mirrors `Index<(usize, usize)> for Board` (`expect` modelled by a `0`
default; all in-code uses are in bounds on square boards). -/
def Board.cell (b : Board) (x y : Nat) : Nat :=
  (b.get (x : Int) (y : Int)).getD 0

/-- Mirrors `Board::contains_letters`. -/
def Board.contains_letters (b : Board) (word : List Nat) : Bool :=
  word.all (fun c => (b.letters.get? (c - 97)).getD false)

/-- Mirrors the `DIRECTIONS` constant of `board.rs`. -/
def DIRECTIONS : List (Int × Int) :=
  [(1, 0), (1, 1), (0, 1), (-1, 1), (-1, 0), (-1, -1), (0, -1), (1, -1)]

/-- Mirrors the `Neighbors` iterator state (`x`, `y`, `current`). -/
structure Neighbors where
  x : Int
  y : Int
  current : Nat
deriving Repr, DecidableEq

/-- The scan inside `Neighbors::next`: walk the remaining directions,
incrementing `current`, returning the first in-bounds position together
with the updated counter. -/
def neighborsNextAux (b : Board) (x y : Int) :
    Nat → List (Int × Int) → Option ((Nat × Nat) × Nat)
  | _, [] => none
  | cur, d :: rest =>
    let cur' := cur + 1
    let nx := x + d.1
    let ny := y + d.2
    if (b.get nx ny).isSome then some ((nx.toNat, ny.toNat), cur')
    else neighborsNextAux b x y cur' rest

/-- Mirrors `Neighbors::next`. -/
def Neighbors.next (b : Board) (s : Neighbors) : Option ((Nat × Nat) × Neighbors) :=
  if s.current ≥ DIRECTIONS.length then none
  else
    match neighborsNextAux b s.x s.y s.current (DIRECTIONS.drop s.current) with
    | some (p, cur') => some (p, ⟨s.x, s.y, cur'⟩)
    | none => none

/-- Drains a `Neighbors` iterator (what a `for` loop over it does); the
fuel bounds the number of `next` calls, 9 always suffices. -/
def neighborsCollectAux (b : Board) : Nat → Neighbors → List (Nat × Nat)
  | 0, _ => []
  | fuel + 1, s =>
    match s.next b with
    | none => []
    | some (p, s') => p :: neighborsCollectAux b fuel s'

/-- The full sequence yielded by `Board::neighbors((x, y))`. -/
def Board.neighborsList (b : Board) (p : Nat × Nat) : List (Nat × Nat) :=
  neighborsCollectAux b 9 ⟨(p.1 : Int), (p.2 : Int), 0⟩

/-- The inner neighbor loop of `Board::has_word` at word position `k`,
cell `(i, j)`: for every neighbor marked at position `k - 1`, mark
`(k, i, j)` and return early when `k` is the final position. -/
def hwNeighbors (w : List Nat) (k i j : Nat) :
    List (Nat × Nat) → Vec3 → Vec3 × Bool
  | [], adj => (adj, false)
  | q :: rest, adj =>
    if adj.get (k - 1) q.1 q.2 then
      let adj' := adj.set k i j true
      if w.length - 1 = k then (adj', true)
      else hwNeighbors w k i j rest adj'
    else hwNeighbors w k i j rest adj

/-- One `(k, i, j)` iteration of the `Board::has_word` loops. -/
def hwCell (b : Board) (w : List Nat) (k i j : Nat) (adj : Vec3) : Vec3 × Bool :=
  if w.get? k ≠ some (b.cell i j) then (adj, false)
  else if k = 0 then (adj.set 0 i j true, false)
  else hwNeighbors w k i j (b.neighborsList (i, j)) adj

/-- The `j` loop of `Board::has_word`. -/
def hwJ (b : Board) (w : List Nat) (k i : Nat) :
    List Nat → Vec3 → Vec3 × Bool
  | [], adj => (adj, false)
  | j :: js, adj =>
    match hwCell b w k i j adj with
    | (adj', true) => (adj', true)
    | (adj', false) => hwJ b w k i js adj'

/-- The `i` loop of `Board::has_word`. -/
def hwI (b : Board) (w : List Nat) (k : Nat) :
    List Nat → Vec3 → Vec3 × Bool
  | [], adj => (adj, false)
  | i :: is, adj =>
    match hwJ b w k i (List.range b.len) adj with
    | (adj', true) => (adj', true)
    | (adj', false) => hwI b w k is adj'

/-- The `k` loop of `Board::has_word`. -/
def hwK (b : Board) (w : List Nat) :
    List Nat → Vec3 → Vec3 × Bool
  | [], adj => (adj, false)
  | k :: ks, adj =>
    match hwI b w k (List.range b.len) adj with
    | (adj', true) => (adj', true)
    | (adj', false) => hwK b w ks adj'

/-- Mirrors `Board::has_word`: the approximate (cell-reuse-ignoring)
filter over the `word_length × N × N` path-state table. -/
def Board.has_word (b : Board) (w : List Nat) : Bool :=
  (hwK b w (List.range w.length) (Vec3.fill w.length b.len b.len false)).2

/-- Mirrors the `DfsItem` of `Board::solve_single_threaded`; `wlen` is the
length of the carried slice `&word[0..wlen]`. -/
structure DfsItem where
  visited : Vec2
  x : Nat
  y : Nat
  wlen : Nat
deriving Repr, DecidableEq

/-- The items pushed for `curr`: mark the current cell in the visited
mask, then one item per unvisited neighbor, extending the word slice. -/
def dfsChildren (b : Board) (curr : DfsItem) : List DfsItem :=
  let visited := curr.visited.set curr.x curr.y true
  (b.neighborsList (curr.x, curr.y)).filterMap (fun q =>
    if visited.get q.1 q.2 then none
    else some ⟨visited, q.1, q.2, curr.wlen + 1⟩)

/-- The `while let Some(curr) = stack.pop()` loop of
`Board::solve_single_threaded`, fuel-indexed (`none` = fuel exhausted;
every in-scope use supplies sufficient fuel, see `dfsLoopF_total`).
The head of the list is the top of the stack; children are pushed in
neighbor order, so they are prepended reversed. -/
def dfsLoopF (b : Board) (w : List Nat) : Nat → List DfsItem → Option Bool
  | 0, _ => none
  | _ + 1, [] => some false
  | fuel + 1, curr :: rest =>
    if w.get? (curr.wlen - 1) ≠ some (b.cell curr.x curr.y) then
      dfsLoopF b w fuel rest
    else if curr.wlen = w.length then some true
    else dfsLoopF b w fuel ((dfsChildren b curr).reverse ++ rest)

/-- The start item pushed for board cell `(i, j)` (fresh visited mask,
word slice `&word[0..1]`). -/
def Board.startItem (b : Board) (i j : Nat) : DfsItem :=
  ⟨Vec2.fill b.len b.len false, i, j, 1⟩

/-- The exact backtracking search for one word: the *found* outcome of
the start-cell loops and DFS stack loop of `Board::solve_single_threaded`
(the spec's `contains_word`). -/
def Board.contains_word (b : Board) (w : List Nat) : Bool :=
  (List.range b.len).any (fun i =>
    (List.range b.len).any (fun j =>
      (dfsLoopF b w (9 ^ w.length) [b.startItem i j]).getD false))

/-- Mirrors `Board::solve_single_threaded`: per dictionary line, reject
words of length < 3, words with letters absent from the board, and words
failing `has_word`; then run the exact search. -/
def Board.solve_single_threaded (b : Board) (words : List (List Nat)) :
    List (List Nat) :=
  match words with
  | [] => []
  | w :: rest =>
    if w.length < 3 || !(b.contains_letters w) || !(b.has_word w) then
      b.solve_single_threaded rest
    else if b.contains_word w then w :: b.solve_single_threaded rest
    else b.solve_single_threaded rest

/-- Mirrors `trie.rs` `TrieNode`: the accumulated word slice, the
terminal flag and the 26 child slots.  Children are stored as a function
from the slot index `(c - b'a')` used by the source; the arena and the
`Cell` wrappers are Rust ownership plumbing with no functional content.
The `seen` flag lives in mutable per-run state and is modelled as part of
the `solve_trie` search state, keyed by the node's `word` slice (which is
the node's unique path from the root). -/
inductive Trie where
  | node : List Nat → Bool → (Nat → Option Trie) → Trie

/-- The `word` field of a `TrieNode`. -/
def Trie.word : Trie → List Nat
  | node w _ _ => w

/-- The `word_end` field of a `TrieNode`. -/
def Trie.wordEnd : Trie → Bool
  | node _ e _ => e

/-- The `roots` child array of a `TrieNode`, keyed by slot index. -/
def Trie.children : Trie → Nat → Option Trie
  | node _ _ ch => ch

/-- Mirrors `TrieNode::new` (fresh node, no children). -/
def Trie.newNode (wordEnd : Bool) (word : List Nat) : Trie :=
  Trie.node word wordEnd (fun _ => none)

/-- Mirrors `TrieNode::root`. -/
def Trie.root : Trie :=
  Trie.newNode false []

/-- The loop of `TrieNode::insert`, recursing over the remaining letters
`rem = word.drop l`: reuse the existing child for `word[l]` or create
`TrieNode::new(l == word.len() - 1, &word[..l + 1])`, then continue below
it.  The `Index<u8>` access asserts `b'a' <= c <= b'z'`; the modelled
slot is `c - 97` (in-scope uses are lowercase). -/
def Trie.insertAux (word : List Nat) : Nat → List Nat → Trie → Trie
  | _, [], t => t
  | l, c :: rest, t =>
    let child :=
      match t.children (c - 97) with
      | some ch => ch
      | none => Trie.newNode (l = word.length - 1) (word.take (l + 1))
    let child' := Trie.insertAux word (l + 1) rest child
    Trie.node t.word t.wordEnd
      (fun s => if s = c - 97 then some child' else t.children s)

/-- Mirrors `TrieNode::insert`. -/
def Trie.insert (t : Trie) (word : List Nat) : Trie :=
  Trie.insertAux word 0 word t

/-- Mirrors `TrieNode::get`: total over all bytes, `None` outside
`b'a'..=b'z'` (the `take`/`set` pair on the `Cell` restores the slot, so
the node is read-only here). -/
def Trie.get (t : Trie) (c : Nat) : Option Trie :=
  if c < 97 ∨ 122 < c then none
  else t.children (c - 97)

/-- Mirrors `TrieNode::contains` (the loop walks `get` edges). -/
def Trie.contains : Trie → List Nat → Bool
  | _, [] => true
  | t, c :: rest =>
    match t.get c with
    | some ch => ch.contains rest
    | none => false

/-- Mirrors `Index<u8> for TrieNode`: `none` models the fatal
`assert!` failure outside `b'a'..=b'z'`; in range it returns the slot
content. -/
def Trie.indexOp (t : Trie) (c : Nat) : Option (Option Trie) :=
  if 97 ≤ c ∧ c ≤ 122 then some (t.children (c - 97)) else none

/-- Observer: the node reached from `t` by following the letters of `p`
through `get` edges (not part of the source; used to state properties of
the tree built by `insert`). -/
def Trie.follow : Trie → List Nat → Option Trie
  | t, [] => some t
  | t, c :: rest =>
    match t.get c with
    | some ch => ch.follow rest
    | none => none

/-- Folding `insert` over a word list (the build phase order). -/
def Trie.insertList (t : Trie) (ws : List (List Nat)) : Trie :=
  ws.foldl Trie.insert t

/-- Mirrors the `DfsItem` of `Board::solve_trie`. -/
structure TrieDfsItem where
  visited : Vec2
  x : Nat
  y : Nat
  t : Trie

/-- The `while let Some(curr) = stack.pop()` loop of `Board::solve_trie`,
fuel-indexed (`none` = fuel exhausted).  State: the stack, the set of
node `word` slices whose `seen` cell is `true`, and the solutions list.
Per iteration: mark the current cell visited, push one item per
unvisited neighbor whose letter has a child edge, then record the node's
word once if it is terminal and not yet seen (the
`!curr.trie.seen.replace(true) && curr.trie.word_end` test). -/
def trieDfsLoopF (b : Board) :
    Nat → List TrieDfsItem → List (List Nat) → List (List Nat) →
    Option (List (List Nat) × List (List Nat))
  | 0, _, _, _ => none
  | _ + 1, [], seen, sols => some (seen, sols)
  | fuel + 1, curr :: rest, seen, sols =>
    let visited := curr.visited.set curr.x curr.y true
    let children := (b.neighborsList (curr.x, curr.y)).filterMap (fun q =>
      match curr.t.get (b.cell q.1 q.2) with
      | some next =>
        if visited.get q.1 q.2 then none
        else some ⟨visited, q.1, q.2, next⟩
      | none => none)
    let wasSeen := decide (curr.t.word ∈ seen)
    let seen' := curr.t.word :: seen
    let sols' :=
      if !wasSeen && curr.t.wordEnd then sols ++ [curr.t.word] else sols
    trieDfsLoopF b fuel (children.reverse ++ rest) seen' sols'

/-- The start-cell loops of `Board::solve_trie`: one fresh-stack DFS per
cell, threading the `seen` flags and solutions. -/
def trieStarts (b : Board) (trie : Trie) (fuel : Nat) :
    List (Nat × Nat) → List (List Nat) × List (List Nat) →
    Option (List (List Nat) × List (List Nat))
  | [], st => some st
  | p :: rest, st =>
    match trieDfsLoopF b fuel [⟨Vec2.fill b.len b.len false, p.1, p.2, trie⟩]
        st.1 st.2 with
    | none => none
    | some st' => trieStarts b trie fuel rest st'

/-- The row-major list of start cells `(i, j)`. -/
def Board.allStarts (b : Board) : List (Nat × Nat) :=
  (List.range b.len).flatMap (fun i => (List.range b.len).map (fun j => (i, j)))

/-- The trie built by `Board::solve_trie`: every line of length ≥ 3 whose
letters all occur on the board is inserted. -/
def Board.buildTrie (b : Board) (words : List (List Nat)) : Trie :=
  words.foldl
    (fun t w => if 3 ≤ w.length && b.contains_letters w then t.insert w else t)
    Trie.root

/-- Mirrors `Board::solve_trie` (fuel-indexed through the DFS loops;
`some` results are faithful complete runs). -/
def Board.solve_trie (b : Board) (words : List (List Nat)) :
    Option (List (List Nat)) :=
  (trieStarts b (b.buildTrie words) (9 ^ (b.len * b.len + 1)) b.allStarts
      ([], [])).map (fun st => st.2)

/-! ## Specification-side predicates -/

/-- The board invariant established by a successful `Board::parse`:
every row's length equals the number of rows. -/
def Board.Square (b : Board) : Prop :=
  ∀ r ∈ b.board, r.length = b.board.length

/-- All bytes are ASCII lowercase letters (the domain on which the
source's `c - b'a'` indexing is panic-free). -/
def ValidWord (w : List Nat) : Prop :=
  ∀ c ∈ w, 97 ≤ c ∧ c ≤ 122

/-- `p` is a (not necessarily proper) prefix of `w`. -/
def PrefixOf (p w : List Nat) : Prop :=
  ∃ s, p ++ s = w

/-- 8-directional (king-move) adjacency of two grid positions. -/
def Adjacent (p q : Nat × Nat) : Prop :=
  p ≠ q ∧ ((p.1 : Int) - (q.1 : Int)).natAbs ≤ 1 ∧
    ((p.2 : Int) - (q.2 : Int)).natAbs ≤ 1

/-- `ps` is a sequence of in-bounds positions, consecutively 8-adjacent,
whose letters spell `w` (cell reuse permitted). -/
def SpellsWalk (b : Board) (ps : List (Nat × Nat)) (w : List Nat) : Prop :=
  List.Forall₂
    (fun p c => p.1 < b.len ∧ p.2 < b.len ∧ b.cell p.1 p.2 = c) ps w ∧
  ps.Chain' Adjacent

/-- A simple path: a walk with pairwise-distinct cells. -/
def SpellsSimple (b : Board) (ps : List (Nat × Nat)) (w : List Nat) : Prop :=
  SpellsWalk b ps w ∧ ps.Nodup

/-! ## Basic lemmas about the flat 2- and 3-dimensional stores -/

/-- The length invariant of every `Vec2` arising in the code. -/
def Vec2.WF (v : Vec2) : Prop :=
  v.data.length = v.width * v.height

theorem Vec2.fill_wf (w h : Nat) (val : Bool) : (Vec2.fill w h val).WF := by
  simp [Vec2.fill, Vec2.WF]

theorem Vec2.set_wf (v : Vec2) (x y : Nat) (val : Bool) (hv : v.WF) :
    (v.set x y val).WF := by
  unfold Vec2.set Vec2.idx
  split
  · exact hv
  · simpa [Vec2.WF] using hv

theorem Vec2.get_fill (w h x y : Nat) (val : Bool) :
    (Vec2.fill w h val).get x y = if x < w ∧ y < h then val else false := by
  unfold Vec2.get Vec2.idx Vec2.fill
  by_cases hb : x ≥ w ∨ y ≥ h
  · have hnb : ¬(x < w ∧ y < h) := by omega
    simp [hb, hnb]
  · have hx : x < w := by omega
    have hy : y < h := by omega
    have hlt : x + y * w < w * h := by
      calc x + y * w < w + y * w := by omega
        _ = (y + 1) * w := by ring
        _ ≤ h * w := Nat.mul_le_mul (by omega) (Nat.le_refl w)
        _ = w * h := Nat.mul_comm h w
    simp [hb, hx, hy, List.get?_eq_getElem?, List.getElem?_replicate, hlt]

theorem Vec2.idx_inj {v : Vec2} {x y a c : Nat} (hx : x < v.width)
    (hy : y < v.height) (ha : a < v.width) (hc : c < v.height)
    (h : x + y * v.width = a + c * v.width) : x = a ∧ y = c := by
  have hw : 0 < v.width := Nat.lt_of_le_of_lt (Nat.zero_le x) hx
  have hx' : (x + y * v.width) % v.width = x := by
    simp [Nat.add_mul_mod_self_right, Nat.mod_eq_of_lt hx]
  have ha' : (a + c * v.width) % v.width = a := by
    simp [Nat.add_mul_mod_self_right, Nat.mod_eq_of_lt ha]
  have hxa : x = a := by rw [← hx', h, ha']
  refine ⟨hxa, ?_⟩
  have : y * v.width = c * v.width := by omega
  exact Nat.eq_of_mul_eq_mul_right hw this

theorem Vec2.get_set_eq (v : Vec2) (x y : Nat) (val : Bool) (hv : v.WF)
    (hx : x < v.width) (hy : y < v.height) :
    (v.set x y val).get x y = val := by
  unfold Vec2.set Vec2.get Vec2.idx
  have hb : ¬(x ≥ v.width ∨ y ≥ v.height) := by omega
  have hlt : x + y * v.width < v.data.length := by
    rw [hv]
    calc x + y * v.width < v.width + y * v.width := by omega
      _ = (y + 1) * v.width := by ring
      _ ≤ v.height * v.width := Nat.mul_le_mul (by omega) (Nat.le_refl _)
      _ = v.width * v.height := Nat.mul_comm _ _
  simp [hb, List.get?_eq_getElem?, List.getElem?_set_self hlt]

theorem Vec2.get_set_ne (v : Vec2) (x y a c : Nat) (val : Bool)
    (hne : ¬(a = x ∧ c = y)) :
    (v.set x y val).get a c = v.get a c := by
  unfold Vec2.set Vec2.get Vec2.idx
  by_cases hxy : x ≥ v.width ∨ y ≥ v.height
  · simp [hxy]
  · by_cases hac : a ≥ v.width ∨ c ≥ v.height
    · simp [hxy, hac]
    · have hx : x < v.width := by omega
      have hy : y < v.height := by omega
      have ha : a < v.width := by omega
      have hc : c < v.height := by omega
      have hne' : a + c * v.width ≠ x + y * v.width := by
        intro h
        exact hne ⟨(Vec2.idx_inj ha hc hx hy h).1, (Vec2.idx_inj ha hc hx hy h).2⟩
      simp [hxy, hac, List.get?_eq_getElem?, List.getElem?_set_ne hne'.symm]

/-- The length invariant of every `Vec3` arising in the code. -/
def Vec3.WF (v : Vec3) : Prop :=
  v.data.length = v.width * v.height * v.depth

theorem Vec3.fill_wf3 (w h d : Nat) (val : Bool) : (Vec3.fill w h d val).WF := by
  simp [Vec3.fill, Vec3.WF]

theorem Vec3.set_wf3 (v : Vec3) (x y z : Nat) (val : Bool) (hv : v.WF) :
    (v.set x y z val).WF := by
  unfold Vec3.set Vec3.idx
  split
  · exact hv
  · simpa [Vec3.WF] using hv

theorem Vec3.idx_lt {w h d x y z : Nat} (hx : x < w) (hy : y < h)
    (hz : z < d) : h * w * z + w * y + x < w * h * d := by
  calc h * w * z + w * y + x < h * w * z + w * y + w := by omega
    _ = h * w * z + w * (y + 1) := by ring
    _ ≤ h * w * z + w * h := by
      have := Nat.mul_le_mul (Nat.le_refl w) (by omega : y + 1 ≤ h)
      omega
    _ = (h * w) * (z + 1) := by ring
    _ ≤ (h * w) * d := Nat.mul_le_mul (Nat.le_refl _) (by omega)
    _ = w * h * d := by ring

theorem Vec3.get_fill3 (w h d x y z : Nat) (val : Bool) :
    (Vec3.fill w h d val).get x y z =
      if z < d ∧ x < w ∧ y < h then val else false := by
  unfold Vec3.get Vec3.idx Vec3.fill
  by_cases hb : z ≥ d ∨ x ≥ w ∨ y ≥ h
  · have hnb : ¬(z < d ∧ x < w ∧ y < h) := by omega
    simp [hb, hnb]
  · have hx : x < w := by omega
    have hy : y < h := by omega
    have hz : z < d := by omega
    simp [hb, hx, hy, hz, List.get?_eq_getElem?, List.getElem?_replicate,
      Vec3.idx_lt hx hy hz]

theorem Vec3.idx_inj3 {v : Vec3} {x y z a c e : Nat} (hx : x < v.width)
    (hy : y < v.height) (ha : a < v.width) (hc : c < v.height)
    (h : v.height * v.width * z + v.width * y + x =
      v.height * v.width * e + v.width * c + a) : x = a ∧ y = c ∧ z = e := by
  have hw : 0 < v.width := Nat.lt_of_le_of_lt (Nat.zero_le x) hx
  have hh : 0 < v.height := Nat.lt_of_le_of_lt (Nat.zero_le y) hy
  have hform : ∀ (y' z' x' : Nat), v.height * v.width * z' + v.width * y' + x' =
      x' + v.width * (y' + v.height * z') := by intro y' z' x'; ring
  rw [hform, hform] at h
  have hxa : x = a := by
    have h1 : (x + v.width * (y + v.height * z)) % v.width = x := by
      simp [Nat.add_mul_mod_self_left, Nat.mod_eq_of_lt hx]
    have h2 : (a + v.width * (c + v.height * e)) % v.width = a := by
      simp [Nat.add_mul_mod_self_left, Nat.mod_eq_of_lt ha]
    rw [← h1, h, h2]
  subst hxa
  have h3 : y + v.height * z = c + v.height * e := by
    have := Nat.eq_of_mul_eq_mul_left hw (by omega :
      v.width * (y + v.height * z) = v.width * (c + v.height * e))
    exact this
  have hyc : y = c := by
    have h1 : (y + v.height * z) % v.height = y := by
      simp [Nat.add_mul_mod_self_left, Nat.mod_eq_of_lt hy]
    have h2 : (c + v.height * e) % v.height = c := by
      simp [Nat.add_mul_mod_self_left, Nat.mod_eq_of_lt hc]
    rw [← h1, h3, h2]
  subst hyc
  refine ⟨rfl, rfl, ?_⟩
  have := Nat.eq_of_mul_eq_mul_left hh (by omega : v.height * z = v.height * e)
  exact this

theorem Vec3.get_set_eq3 (v : Vec3) (x y z : Nat) (val : Bool) (hv : v.WF)
    (hx : x < v.width) (hy : y < v.height) (hz : z < v.depth) :
    (v.set x y z val).get x y z = val := by
  unfold Vec3.set Vec3.get Vec3.idx
  have hb : ¬(z ≥ v.depth ∨ x ≥ v.width ∨ y ≥ v.height) := by omega
  have hlt : v.height * v.width * z + v.width * y + x < v.data.length := by
    rw [hv]; exact Vec3.idx_lt hx hy hz
  simp [hb, List.get?_eq_getElem?, List.getElem?_set_self hlt]

theorem Vec3.get_set_ne3 (v : Vec3) (x y z a c e : Nat) (val : Bool)
    (hne : ¬(a = x ∧ c = y ∧ e = z)) :
    (v.set x y z val).get a c e = v.get a c e := by
  unfold Vec3.set Vec3.get Vec3.idx
  by_cases hxyz : z ≥ v.depth ∨ x ≥ v.width ∨ y ≥ v.height
  · simp [hxyz]
  · by_cases hace : e ≥ v.depth ∨ a ≥ v.width ∨ c ≥ v.height
    · simp [hxyz, hace]
    · have hx : x < v.width := by omega
      have hy : y < v.height := by omega
      have ha : a < v.width := by omega
      have hc : c < v.height := by omega
      have hne' : v.height * v.width * e + v.width * c + a ≠
          v.height * v.width * z + v.width * y + x := by
        intro h
        obtain ⟨h1, h2, h3⟩ := Vec3.idx_inj3 ha hc hx hy h
        exact hne ⟨h1, h2, h3⟩
      simp [hxyz, hace, List.get?_eq_getElem?, List.getElem?_set_ne hne'.symm]

/-- Setting the same cell to the same value twice is one set. -/
theorem Vec3.set_set (v : Vec3) (x y z : Nat) (val : Bool) :
    (v.set x y z val).set x y z val = v.set x y z val := by
  unfold Vec3.set Vec3.idx
  by_cases hb : z ≥ v.depth ∨ x ≥ v.width ∨ y ≥ v.height
  · simp [hb]
  · simp [hb, List.set_set]

/-! ## Concrete boards used to instantiate and to refute claims -/

/-- Lines of the 1×1 board `"a"` (accepted by `Board::parse`). -/
def oneLines : List (List Nat) := [[97]]

/-- The parsed 1×1 board `"a"`. -/
def oneB : Board := ⟨oneLines, mkLetters oneLines⟩

/-- Lines of the 3×3 board `"abc\ndef\nghi"`. -/
def threeLines : List (List Nat) := [[97, 98, 99], [100, 101, 102], [103, 104, 105]]

/-- The parsed 3×3 board `"abc\ndef\nghi"`. -/
def threeB : Board := ⟨threeLines, mkLetters threeLines⟩

/-- The bytes of `"abcfedghi"`, a word spelt by a Hamiltonian simple path
of `threeB` (it uses all nine cells). -/
def hamWord : List Nat := [97, 98, 99, 102, 101, 100, 103, 104, 105]

/-! ## Claim C3 -/

/-- Counterexample to C3: the 2×2 input `"ab\ncd"` (equal row lengths)
does *not* yield a board-size error — `Board::parse` has no minimum-size
check and accepts it. -/
theorem c3_counterexample_2x2_parses_ok :
    Board.parse [[97, 98], [99, 100]] =
      Except.ok (Board.mk [[97, 98], [99, 100]] (mkLetters [[97, 98], [99, 100]])) := by
  rfl

/-- C3 (amended): `Board::parse` returns the board-size error exactly
when some line's byte length differs from the line count; otherwise it
succeeds.  There is no minimum-line-count check, so square inputs with
fewer than 3 lines (for example 2×2) parse successfully. -/
theorem c3_amended_parse_boardsize_iff (lines : List (List Nat)) :
    (Board.parse lines =
        Except.error (Error.BoardSize ("unequal row and column sizes")) ↔
      ∃ l ∈ lines, l.length ≠ lines.length) ∧
    (Board.parse lines = Except.ok (Board.mk lines (mkLetters lines)) ↔
      ∀ l ∈ lines, l.length = lines.length) := by
  unfold Board.parse
  by_cases h : lines.any (fun l => l.length != lines.length) = true
  · have hex : ∃ l ∈ lines, l.length ≠ lines.length := by
      simpa [List.any_eq_true, bne_iff_ne] using h
    constructor
    · simp [h, hex]
    · constructor
      · intro hok
        simp [h] at hok
      · intro hall
        obtain ⟨l, hl, hne⟩ := hex
        exact absurd (hall l hl) hne
  · have hall : ∀ l ∈ lines, l.length = lines.length := by
      simpa [List.any_eq_true, bne_iff_ne] using h
    constructor
    · constructor
      · intro herr
        simp [h] at herr
      · intro hex
        obtain ⟨l, hl, hne⟩ := hex
        exact absurd (hall l hl) hne
    · simpa [h] using hall

/-! ## Claim C10 -/

/-- C10: `TrieNode::get` is total over all byte inputs: outside
`b'a'..=b'z'` it returns `None` (no fault, no mutation — the model is
pure, matching the `take`-then-`set` restore in the source); inside the
range it returns the child slot for `c - b'a'` unchanged.  Indexing via
the `Index` operator instead asserts, modelled by `indexOp` being `none`
exactly outside the range and agreeing with `get` inside it. -/
theorem c10_get_total (t : Trie) (c : Nat) :
    (c < 97 ∨ 122 < c → t.get c = none ∧ t.indexOp c = none) ∧
    (97 ≤ c → c ≤ 122 →
      t.get c = t.children (c - 97) ∧ t.indexOp c = some (t.get c)) := by
  constructor
  · intro h
    constructor
    · simp [Trie.get, h]
    · have : ¬(97 ≤ c ∧ c ≤ 122) := by omega
      simp [Trie.indexOp, this]
  · intro h1 h2
    have hin : ¬(c < 97 ∨ 122 < c) := by omega
    constructor
    · simp [Trie.get, hin]
    · simp [Trie.indexOp, Trie.get, hin, h1, h2]

/-- Witness for C10 at concrete inputs: byte 48 (`'0'`) is outside the
range, byte 97 (`'a'`) inside. -/
theorem c10_get_total_witness :
    (Trie.root.get 48 = none ∧ Trie.root.indexOp 48 = none) ∧
    (Trie.root.get 97 = Trie.root.children 0 ∧
      Trie.root.indexOp 97 = some (Trie.root.get 97)) :=
  ⟨(c10_get_total Trie.root 48).1 (by omega),
   (c10_get_total Trie.root 97).2 (by omega) (by omega)⟩

/-! ## Claim C8: the neighbors iterator -/

/-- The bounds-checked step for one direction offset: `some` of the
neighbor position when `p + d` is in bounds, else `none`. -/
def nstep (b : Board) (x y : Int) (d : Int × Int) : Option (Nat × Nat) :=
  if (b.get (x + d.1) (y + d.2)).isSome then
    some ((x + d.1).toNat, (y + d.2).toNat)
  else none

theorem neighborsNextAux_spec (b : Board) (x y : Int) :
    ∀ (ds : List (Int × Int)) (cur : Nat),
      (neighborsNextAux b x y cur ds = none ∧
        ds.filterMap (nstep b x y) = []) ∨
      (∃ p cur', neighborsNextAux b x y cur ds = some (p, cur') ∧
        cur < cur' ∧ cur' ≤ cur + ds.length ∧
        ds.filterMap (nstep b x y) =
          p :: (ds.drop (cur' - cur)).filterMap (nstep b x y)) := by
  intro ds
  induction ds with
  | nil => intro cur; left; simp [neighborsNextAux]
  | cons d rest ih =>
    intro cur
    by_cases hd : (b.get (x + d.1) (y + d.2)).isSome
    · right
      refine ⟨((x + d.1).toNat, (y + d.2).toNat), cur + 1, ?_, by omega, by simp, ?_⟩
      · simp [neighborsNextAux, hd]
      · simp [List.filterMap_cons, nstep, hd]
    · have hstep : nstep b x y d = none := by simp [nstep, hd]
      have heq : neighborsNextAux b x y cur (d :: rest) =
          neighborsNextAux b x y (cur + 1) rest := by
        simp [neighborsNextAux, hd]
      rcases ih (cur + 1) with ⟨h1, h2⟩ | ⟨p, cur', h1, h2, h3, h4⟩
      · left
        constructor
        · rw [heq]; exact h1
        · simp [List.filterMap_cons, hstep, h2]
      · right
        refine ⟨p, cur', ?_, by omega, by simp; omega, ?_⟩
        · rw [heq]; exact h1
        · have hdrop : (d :: rest).drop (cur' - cur) =
              rest.drop (cur' - (cur + 1)) := by
            have : cur' - cur = (cur' - (cur + 1)) + 1 := by omega
            simp [this]
          rw [hdrop]
          simp [List.filterMap_cons, hstep, h4]

theorem neighborsCollectAux_spec (b : Board) (x y : Int) :
    ∀ (fuel cur : Nat), DIRECTIONS.length - cur < fuel →
      neighborsCollectAux b fuel ⟨x, y, cur⟩ =
        (DIRECTIONS.drop cur).filterMap (nstep b x y) := by
  intro fuel
  induction fuel with
  | zero => intro cur h; omega
  | succ f ih =>
    intro cur hcur
    by_cases hc : cur ≥ DIRECTIONS.length
    · have hdrop : DIRECTIONS.drop cur = [] := List.drop_eq_nil_of_le hc
      simp [neighborsCollectAux, Neighbors.next, hc, hdrop]
    · rcases neighborsNextAux_spec b x y (DIRECTIONS.drop cur) cur with
        ⟨h1, h2⟩ | ⟨p, cur', h1, h2, h3, h4⟩
      · simp [neighborsCollectAux, Neighbors.next, hc, h1, h2]
      · have hnext : Neighbors.next b ⟨x, y, cur⟩ = some (p, ⟨x, y, cur'⟩) := by
          simp [Neighbors.next, hc, h1]
        have hdrop2 : (DIRECTIONS.drop cur).drop (cur' - cur) =
            DIRECTIONS.drop cur' := by
          rw [List.drop_drop]
          congr 1
          omega
        have hlen : (DIRECTIONS.drop cur).length = DIRECTIONS.length - cur := by
          simp
        have ihcur' : neighborsCollectAux b f ⟨x, y, cur'⟩ =
            (DIRECTIONS.drop cur').filterMap (nstep b x y) := by
          apply ih
          omega
        simp only [neighborsCollectAux, hnext, ihcur']
        rw [h4, hdrop2]

/-- The neighbor list is exactly the in-bounds directions, in direction
order. -/
theorem neighborsList_eq_filterMap (b : Board) (p : Nat × Nat) :
    b.neighborsList p = DIRECTIONS.filterMap (nstep b (p.1 : Int) (p.2 : Int)) := by
  unfold Board.neighborsList
  have := neighborsCollectAux_spec b (p.1 : Int) (p.2 : Int) 9 0 (by simp [DIRECTIONS])
  simpa using this

/-- `get?` is `some` exactly below the length. -/
theorem get?_isSome_iff {α : Type} (l : List α) (n : Nat) :
    (l.get? n).isSome = true ↔ n < l.length := by
  rw [List.get?_eq_getElem?]
  by_cases h : n < l.length
  · simp [List.getElem?_eq_getElem h, h]
  · simp [List.getElem?_eq_none (by omega : l.length ≤ n), h]

/-- In-bounds characterisation of `Board::get` on square boards. -/
theorem Board.get_isSome_iff (b : Board) (hsq : b.Square) (x y : Int) :
    (b.get x y).isSome ↔
      0 ≤ x ∧ x < (b.len : Int) ∧ 0 ≤ y ∧ y < (b.len : Int) := by
  unfold Board.get
  by_cases hb : x < 0 ∨ x ≥ (b.len : Int) ∨ y < 0 ∨ y ≥ (b.len : Int)
  · simp only [hb, if_true]
    constructor
    · intro h; simp at h
    · intro h; omega
  · simp only [hb, if_false]
    have hlen : b.len = b.board.length := rfl
    have hxl : x.toNat < b.board.length := by omega
    obtain ⟨row, hrow⟩ : ∃ row, b.board.get? x.toNat = some row := by
      have := (get?_isSome_iff b.board x.toNat).2 hxl
      exact Option.isSome_iff_exists.1 this
    have hrlen : row.length = b.board.length := hsq row (List.get?_mem hrow)
    have hyl : y.toNat < row.length := by omega
    have := (get?_isSome_iff row y.toNat).2 hyl
    rw [hrow, Option.some_bind]
    constructor
    · intro _; omega
    · intro _; exact this

/-- `Board::get` never succeeds out of bounds (any board). -/
theorem Board.get_isSome_bounds (b : Board) (x y : Int)
    (h : (b.get x y).isSome) :
    0 ≤ x ∧ x < (b.len : Int) ∧ 0 ≤ y ∧ y < (b.len : Int) := by
  unfold Board.get at h
  by_cases hb : x < 0 ∨ x ≥ (b.len : Int) ∨ y < 0 ∨ y ≥ (b.len : Int)
  · simp [hb] at h
  · omega

/-- Distinct directions never produce the same neighbor position. -/
theorem nstep_inj (b : Board) (x y : Int) (d1 d2 : Int × Int) (q : Nat × Nat)
    (h1 : nstep b x y d1 = some q) (h2 : nstep b x y d2 = some q) : d1 = d2 := by
  unfold nstep at h1 h2
  by_cases hb1 : (b.get (x + d1.1) (y + d1.2)).isSome
  · by_cases hb2 : (b.get (x + d2.1) (y + d2.2)).isSome
    · simp only [hb1, if_true] at h1
      simp only [hb2, if_true] at h2
      obtain ⟨hx1, -, hy1, -⟩ := b.get_isSome_bounds _ _ hb1
      obtain ⟨hx2, -, hy2, -⟩ := b.get_isSome_bounds _ _ hb2
      have hq1 := h1.trans h2.symm
      have e1 : (x + d1.1).toNat = (x + d2.1).toNat := by
        simpa using congrArg Prod.fst (Option.some.inj hq1)
      have e2 : (y + d1.2).toNat = (y + d2.2).toNat := by
        simpa using congrArg Prod.snd (Option.some.inj hq1)
      have : d1.1 = d2.1 := by omega
      have : d1.2 = d2.2 := by omega
      cases d1; cases d2
      simp_all
    · simp [hb2] at h2
  · simp [hb1] at h1

/-- C8: for every parsed (square) board and every in-bounds position,
the `Neighbors` iterator yields exactly those of the 8 direction offsets
that stay in bounds, each exactly once, in the fixed `DIRECTIONS` order;
it never yields an out-of-bounds position and yields at most 8 items. -/
theorem c8_neighbors_exact (b : Board) (hsq : b.Square) (p : Nat × Nat)
    (hx : p.1 < b.len) (hy : p.2 < b.len) :
    b.neighborsList p =
      DIRECTIONS.filterMap (nstep b (p.1 : Int) (p.2 : Int)) ∧
    (b.neighborsList p).Nodup ∧
    (∀ q ∈ b.neighborsList p, q.1 < b.len ∧ q.2 < b.len) ∧
    (b.neighborsList p).length ≤ 8 := by
  have heq := neighborsList_eq_filterMap b p
  refine ⟨heq, ?_, ?_, ?_⟩
  · rw [heq]
    apply List.Nodup.filterMap
    · intro d1 d2 q h1 h2
      exact nstep_inj b _ _ d1 d2 q h1 h2
    · decide
  · intro q hq
    rw [heq] at hq
    obtain ⟨d, -, hd⟩ := List.mem_filterMap.1 hq
    unfold nstep at hd
    by_cases hb : (b.get ((p.1 : Int) + d.1) ((p.2 : Int) + d.2)).isSome
    · simp only [hb, if_true] at hd
      obtain ⟨h1, h2, h3, h4⟩ := b.get_isSome_bounds _ _ hb
      cases hd
      constructor <;> simp <;> omega
    · simp [hb] at hd
  · rw [heq]
    calc (DIRECTIONS.filterMap (nstep b (p.1 : Int) (p.2 : Int))).length
        ≤ DIRECTIONS.length := List.length_filterMap_le _ _
      _ = 8 := by decide

/-- The concrete 3×3 board is square. -/
theorem threeB_square : threeB.Square := by
  unfold Board.Square threeB threeLines
  decide

/-- The concrete 1×1 board is square. -/
theorem oneB_square : oneB.Square := by
  unfold Board.Square oneB oneLines
  decide

/-- Witness for C8 on the parsed 3×3 board at position (0, 0). -/
theorem c8_neighbors_exact_witness :
    threeB.neighborsList (0, 0) =
      DIRECTIONS.filterMap (nstep threeB 0 0) ∧
    (threeB.neighborsList (0, 0)).Nodup ∧
    (∀ q ∈ threeB.neighborsList (0, 0), q.1 < threeB.len ∧ q.2 < threeB.len) ∧
    (threeB.neighborsList (0, 0)).length ≤ 8 :=
  c8_neighbors_exact threeB threeB_square (0, 0) (by decide) (by decide)

/-! ## Trie lemmas (claims C5 and C9) -/

instance (w : List Nat) : Decidable (ValidWord w) := by
  unfold ValidWord
  infer_instance

instance (b : Board) : Decidable b.Square := by
  unfold Board.Square
  infer_instance

theorem drop_cons_facts {word rem rest : List Nat} {c : Nat} {l : Nat}
    (hrem : rem = word.drop l) (hc : rem = c :: rest) :
    rest = word.drop (l + 1) ∧ c ∈ word ∧ l < word.length := by
  have h1 : word.drop l = c :: rest := hrem ▸ hc
  refine ⟨?_, ?_, ?_⟩
  · have h2 := List.drop_drop 1 l word
    rw [h1] at h2
    simpa [Nat.add_comm] using h2
  · exact List.drop_subset l word (h1 ▸ List.mem_cons_self c rest)
  · by_contra h
    have : word.drop l = [] := List.drop_eq_nil_of_le (by omega)
    rw [this] at h1
    cases h1

/-- `contains` is path existence through `get` edges. -/
theorem Trie.contains_iff_follow (t : Trie) (p : List Nat) :
    t.contains p = (t.follow p).isSome := by
  induction p generalizing t with
  | nil => rfl
  | cons c ps ih =>
    unfold Trie.contains Trie.follow
    cases t.get c with
    | none => rfl
    | some ch => exact ih ch

/-- A `get` hit implies the byte is in the lowercase range. -/
theorem Trie.get_range {t : Trie} {c : Nat} {ch : Trie}
    (h : t.get c = some ch) : 97 ≤ c ∧ c ≤ 122 ∧ t.children (c - 97) = some ch := by
  unfold Trie.get at h
  by_cases hb : c < 97 ∨ 122 < c
  · simp [hb] at h
  · refine ⟨by omega, by omega, by simpa [hb] using h⟩

/-- `follow` on a cons, through a hit edge. -/
theorem Trie.follow_cons_some {t ch : Trie} {c : Nat} (rest : List Nat)
    (h : t.get c = some ch) : t.follow (c :: rest) = ch.follow rest := by
  show (match t.get c with
    | some ch => ch.follow rest
    | none => none) = ch.follow rest
  rw [h]

/-- `follow` on a cons, through a missing edge. -/
theorem Trie.follow_cons_none {t : Trie} {c : Nat} (rest : List Nat)
    (h : t.get c = none) : t.follow (c :: rest) = none := by
  show (match t.get c with
    | some ch => ch.follow rest
    | none => none) = none
  rw [h]

/-- `get` on an in-range byte is the slot lookup. -/
theorem Trie.get_in_range (t : Trie) {c : Nat} (h1 : 97 ≤ c) (h2 : c ≤ 122) :
    t.get c = t.children (c - 97) := by
  unfold Trie.get
  have hb : ¬(c < 97 ∨ 122 < c) := by omega
  simp [hb]

theorem Trie.children_node (w : List Nat) (e : Bool) (ch : Nat → Option Trie) :
    (Trie.node w e ch).children = ch := rfl

theorem Trie.insertAux_nil (word : List Nat) (l : Nat) (t : Trie) :
    Trie.insertAux word l [] t = t := rfl

theorem Trie.insertAux_cons (word : List Nat) (l : Nat) (c : Nat)
    (rest : List Nat) (t : Trie) :
    Trie.insertAux word l (c :: rest) t =
      Trie.node t.word t.wordEnd
        (fun s => if s = c - 97 then
            some (Trie.insertAux word (l + 1) rest
              (match t.children (c - 97) with
               | some ch => ch
               | none => Trie.newNode (decide (l = word.length - 1))
                   (word.take (l + 1))))
          else t.children s) := rfl

/-- A fresh node has no outgoing edges. -/
theorem Trie.newNode_follow_nil (e : Bool) (w : List Nat) (c : Nat)
    (rest : List Nat) :
    (Trie.newNode e w).follow (c :: rest) = none := by
  by_cases hb : c < 97 ∨ 122 < c
  · apply Trie.follow_cons_none
    unfold Trie.get
    simp [hb]
  · apply Trie.follow_cons_none
    unfold Trie.get
    simp [hb, Trie.newNode, Trie.children]

/-- After `insert`, the node for the inserted word exists; its terminal
flag is the pre-existing node's flag if the path already existed, and
`true` if the final node was created by this insertion. -/
theorem Trie.insertAux_follow_self (word : List Nat) (hw : ValidWord word) :
    ∀ (rem : List Nat) (l : Nat) (t : Trie), rem = word.drop l →
      ∃ m, (Trie.insertAux word l rem t).follow rem = some m ∧
        m.wordEnd = ((t.follow rem).map Trie.wordEnd).getD true := by
  intro rem
  induction rem with
  | nil =>
    intro l t _
    exact ⟨t, rfl, by simp [Trie.follow]⟩
  | cons c rest ih =>
    intro l t hrem
    obtain ⟨hrest, hcmem, hl⟩ := drop_cons_facts hrem rfl
    have hcrange := hw c hcmem
    rw [Trie.insertAux_cons]
    set child := match t.children (c - 97) with
      | some ch => ch
      | none => Trie.newNode (decide (l = word.length - 1)) (word.take (l + 1))
      with hchild
    set result := Trie.node t.word t.wordEnd
      (fun s => if s = c - 97 then
          some (Trie.insertAux word (l + 1) rest child)
        else t.children s) with hresult
    have hget : result.get c = some (Trie.insertAux word (l + 1) rest child) := by
      rw [Trie.get_in_range result hcrange.1 hcrange.2, hresult,
        Trie.children_node]
      simp
    obtain ⟨m, hm, hend⟩ := ih (l + 1) child hrest
    refine ⟨m, ?_, ?_⟩
    · rw [Trie.follow_cons_some rest hget]
      exact hm
    · rw [hend]
      cases hch : t.children (c - 97) with
      | some ch =>
        have hcval : child = ch := by rw [hchild, hch]
        have hfol : t.follow (c :: rest) = ch.follow rest :=
          Trie.follow_cons_some rest
            (by rw [Trie.get_in_range t hcrange.1 hcrange.2, hch])
        rw [hfol, hcval]
      | none =>
        have hcval : child =
            Trie.newNode (decide (l = word.length - 1)) (word.take (l + 1)) := by
          rw [hchild, hch]
        have hfol : t.follow (c :: rest) = none :=
          Trie.follow_cons_none rest
            (by rw [Trie.get_in_range t hcrange.1 hcrange.2, hch])
        rw [hfol]
        cases rest with
        | nil =>
          have hlen : word.length ≤ l + 1 := List.drop_eq_nil_iff_le.1 hrest.symm
          have hl1 : l = word.length - 1 := by omega
          rw [hcval]
          simp [Trie.follow, Trie.newNode, Trie.wordEnd, hl1]
        | cons c' rest' =>
          rw [hcval, Trie.newNode_follow_nil]

/-- Insertion preserves every existing node (its flag and word). -/
theorem Trie.insertAux_preserves (word : List Nat) (hw : ValidWord word) :
    ∀ (p : List Nat) (l : Nat) (rem : List Nat) (t n : Trie),
      rem = word.drop l → t.follow p = some n →
      ∃ n', (Trie.insertAux word l rem t).follow p = some n' ∧
        n'.wordEnd = n.wordEnd ∧ n'.word = n.word := by
  intro p
  induction p with
  | nil =>
    intro l rem t n hrem hfol
    have hn : n = t := by
      have : t.follow [] = some t := rfl
      rw [this] at hfol
      exact (Option.some.inj hfol).symm
    subst hn
    cases rem with
    | nil => exact ⟨n, rfl, rfl, rfl⟩
    | cons c rest =>
      rw [Trie.insertAux_cons]
      exact ⟨_, rfl, rfl, rfl⟩
  | cons c ps ih =>
    intro l rem t n hrem hfol
    have hfol' : ∃ ch, t.get c = some ch ∧ ch.follow ps = some n := by
      cases hg : t.get c with
      | none => rw [Trie.follow_cons_none ps hg] at hfol; cases hfol
      | some ch =>
        exact ⟨ch, rfl, by rw [Trie.follow_cons_some ps hg] at hfol; exact hfol⟩
    obtain ⟨ch, hg, hfolch⟩ := hfol'
    obtain ⟨hc1, hc2, hch⟩ := Trie.get_range hg
    cases rem with
    | nil => exact ⟨n, hfol, rfl, rfl⟩
    | cons c0 rest =>
      obtain ⟨hrest, hc0mem, hl⟩ := drop_cons_facts hrem rfl
      have hc0range := hw c0 hc0mem
      rw [Trie.insertAux_cons]
      set child := match t.children (c0 - 97) with
        | some ch0 => ch0
        | none => Trie.newNode (decide (l = word.length - 1)) (word.take (l + 1))
        with hchild
      set result := Trie.node t.word t.wordEnd
        (fun s => if s = c0 - 97 then
            some (Trie.insertAux word (l + 1) rest child)
          else t.children s) with hresult
      by_cases hcc : c = c0
      · subst hcc
        have hcval : child = ch := by rw [hchild, hch]
        obtain ⟨n', hn', he, hwrd⟩ := ih (l + 1) rest ch n hrest hfolch
        refine ⟨n', ?_, he, hwrd⟩
        have hget : result.get c = some (Trie.insertAux word (l + 1) rest child) := by
          rw [Trie.get_in_range result hc1 hc2, hresult, Trie.children_node]
          simp
        rw [Trie.follow_cons_some ps hget, hcval]
        exact hn'
      · refine ⟨n, ?_, rfl, rfl⟩
        have hidx : ¬(c - 97 = c0 - 97) := by omega
        have hget : result.get c = some ch := by
          rw [Trie.get_in_range result hc1 hc2, hresult, Trie.children_node]
          simp only [hidx, if_false]
          exact hch
        rw [Trie.follow_cons_some ps hget]
        exact hfolch

/-- The head self-edge of `insertAux` on a cons. -/
theorem Trie.insertAux_cons_get_self (word : List Nat) (l c : Nat)
    (rest : List Nat) (t : Trie) (h1 : 97 ≤ c) (h2 : c ≤ 122) :
    (Trie.insertAux word l (c :: rest) t).get c =
      some (Trie.insertAux word (l + 1) rest
        (match t.children (c - 97) with
         | some ch => ch
         | none => Trie.newNode (decide (l = word.length - 1))
             (word.take (l + 1)))) := by
  rw [Trie.insertAux_cons, Trie.get_in_range _ h1 h2, Trie.children_node]
  simp

/-- `insertAux` leaves the other slots untouched. -/
theorem Trie.insertAux_cons_get_other (word : List Nat) (l c0 : Nat)
    (rest : List Nat) (t : Trie) (c : Nat) (h1 : 97 ≤ c) (h2 : c ≤ 122)
    (hne : c - 97 ≠ c0 - 97) :
    (Trie.insertAux word l (c0 :: rest) t).get c = t.children (c - 97) := by
  rw [Trie.insertAux_cons, Trie.get_in_range _ h1 h2, Trie.children_node]
  simp [hne]

/-- Every weak prefix of the inserted suffix is reachable afterwards. -/
theorem Trie.insertAux_follow_prefix (word : List Nat) (hw : ValidWord word) :
    ∀ (p s : List Nat) (l : Nat) (rem : List Nat) (t : Trie),
      rem = word.drop l → p ++ s = rem →
      ((Trie.insertAux word l rem t).follow p).isSome := by
  intro p
  induction p with
  | nil =>
    intro s l rem t _ _
    simp [Trie.follow]
  | cons c ps ih =>
    intro s l rem t hrem hps
    cases rem with
    | nil => cases hps
    | cons c0 rest =>
      have hc : c = c0 ∧ ps ++ s = rest := by
        rw [List.cons_append] at hps
        exact ⟨(List.cons.inj hps).1, (List.cons.inj hps).2⟩
      obtain ⟨hceq, hps'⟩ := hc
      subst hceq
      obtain ⟨hrest, hcmem, hl⟩ := drop_cons_facts hrem rfl
      have hcrange := hw c hcmem
      rw [Trie.follow_cons_some ps
        (Trie.insertAux_cons_get_self word l c rest t hcrange.1 hcrange.2)]
      exact ih s (l + 1) rest _ hrest hps'

/-- `insertAux` creates no reachable path outside the weak prefixes of
the inserted suffix. -/
theorem Trie.insertAux_no_new (word : List Nat) (hw : ValidWord word) :
    ∀ (p : List Nat) (l : Nat) (rem : List Nat) (t : Trie),
      rem = word.drop l →
      ((Trie.insertAux word l rem t).follow p).isSome →
      (t.follow p).isSome ∨ ∃ s, p ++ s = rem := by
  intro p
  induction p with
  | nil =>
    intro l rem t _ _
    left
    simp [Trie.follow]
  | cons c ps ih =>
    intro l rem t hrem hsome
    cases rem with
    | nil =>
      left
      simpa [Trie.insertAux_nil] using hsome
    | cons c0 rest =>
      obtain ⟨hrest, hc0mem, hl⟩ := drop_cons_facts hrem rfl
      have hc0range := hw c0 hc0mem
      by_cases hcr : c < 97 ∨ 122 < c
      · exfalso
        rw [Trie.follow_cons_none ps (by unfold Trie.get; simp [hcr])] at hsome
        simp at hsome
      · have h1 : 97 ≤ c := by omega
        have h2 : c ≤ 122 := by omega
        by_cases hcc : c - 97 = c0 - 97
        · have hceq : c = c0 := by omega
          subst hceq
          rw [Trie.follow_cons_some ps
            (Trie.insertAux_cons_get_self word l c rest t h1 h2)] at hsome
          cases hch : t.children (c - 97) with
          | some ch =>
            have hsome' : ((Trie.insertAux word (l + 1) rest ch).follow ps).isSome := by
              rw [hch] at hsome
              exact hsome
            rcases ih (l + 1) rest ch hrest hsome' with hch2 | ⟨s, hs⟩
            · left
              rw [Trie.follow_cons_some ps (by rw [Trie.get_in_range t h1 h2, hch])]
              exact hch2
            · right
              exact ⟨s, by rw [List.cons_append, hs]⟩
          | none =>
            have hsome' : ((Trie.insertAux word (l + 1) rest
                (Trie.newNode (decide (l = word.length - 1))
                  (word.take (l + 1)))).follow ps).isSome := by
              rw [hch] at hsome
              exact hsome
            rcases ih (l + 1) rest _ hrest hsome' with hch2 | ⟨s, hs⟩
            · cases ps with
              | nil => right; exact ⟨rest, rfl⟩
              | cons c' ps' =>
                rw [Trie.newNode_follow_nil] at hch2
                simp at hch2
            · right
              exact ⟨s, by rw [List.cons_append, hs]⟩
        · cases hch : t.children (c - 97) with
          | none =>
            exfalso
            rw [Trie.follow_cons_none ps
              (by rw [Trie.insertAux_cons_get_other word l c0 rest t c h1 h2 hcc, hch])]
              at hsome
            simp at hsome
          | some ch =>
            left
            have hsome' : (ch.follow ps).isSome := by
              rw [Trie.follow_cons_some ps
                (by rw [Trie.insertAux_cons_get_other word l c0 rest t c h1 h2 hcc, hch])]
                at hsome
              exact hsome
            rw [Trie.follow_cons_some ps (by rw [Trie.get_in_range t h1 h2, hch])]
            exact hsome'

/-- The fresh root has no nonempty reachable path. -/
theorem Trie.root_follow_cons (c : Nat) (ps : List Nat) :
    Trie.root.follow (c :: ps) = none :=
  Trie.newNode_follow_nil false [] c ps

theorem Trie.insertList_cons (t : Trie) (e : List Nat) (rest : List (List Nat)) :
    t.insertList (e :: rest) = (t.insert e).insertList rest := rfl

theorem Trie.insertList_append (t : Trie) (a b : List (List Nat)) :
    t.insertList (a ++ b) = (t.insertList a).insertList b := by
  unfold Trie.insertList
  exact List.foldl_append Trie.insert t a b

/-- `insertList` preserves existing nodes (flag and word). -/
theorem Trie.insertList_preserves :
    ∀ (ws : List (List Nat)) (t n : Trie) (p : List Nat),
      (∀ e ∈ ws, ValidWord e) → t.follow p = some n →
      ∃ n', (t.insertList ws).follow p = some n' ∧
        n'.wordEnd = n.wordEnd ∧ n'.word = n.word := by
  intro ws
  induction ws with
  | nil => exact fun t n p _ h => ⟨n, h, rfl, rfl⟩
  | cons e rest ih =>
    intro t n p hv hfol
    obtain ⟨n1, h1, he1, hw1⟩ :=
      Trie.insertAux_preserves e (hv e (List.mem_cons_self e rest)) p 0 e t n
        (List.drop_zero e).symm hfol
    obtain ⟨n2, h2, he2, hw2⟩ :=
      ih (t.insert e) n1 p (fun x hx => hv x (List.mem_cons_of_mem e hx)) h1
    exact ⟨n2, by rw [Trie.insertList_cons]; exact h2,
      by rw [he2, he1], by rw [hw2, hw1]⟩

/-- `insertList` preserves path existence. -/
theorem Trie.insertList_isSome_preserved (ws : List (List Nat)) (t : Trie)
    (p : List Nat) (hv : ∀ e ∈ ws, ValidWord e)
    (h : (t.follow p).isSome) : ((t.insertList ws).follow p).isSome := by
  obtain ⟨n, hn⟩ := Option.isSome_iff_exists.1 h
  obtain ⟨n', hn', -, -⟩ := Trie.insertList_preserves ws t n p hv hn
  rw [hn']
  rfl

/-! ## Claim C5 -/

/-- Counterexample to C5: insert `"abcd"` then `"abc"` into a fresh
tree — the node reached by `"abc"` exists but is *not* marked terminal,
because `TrieNode::insert` reuses an existing node without updating its
`word_end` flag.  (Inserting in the opposite order does mark it.) -/
theorem c5_counterexample_prefix_insert_not_terminal :
    (((Trie.root.insert [97, 98, 99, 100]).insert [97, 98, 99]).follow
        [97, 98, 99]).map Trie.wordEnd = some false := by
  rfl

/-- C5 (amended): after inserting any sequence of lowercase candidate
words into a fresh Prefix Tree, for every nonempty inserted word `w`
such that no *strict extension* of `w` was inserted earlier, the node
reached from the root by following `w`'s letters exists and is marked
terminal (`word_end = true`).  (The original claim's "regardless of the
order of insertions" fails: if a strict extension of `w` is inserted
first, the node for `w` is created as an interior node with
`word_end = false` and a later insertion of `w` does not update it.) -/
theorem c5_amended_insert_marks_terminal (l r : List (List Nat))
    (w : List Nat) (hw0 : w ≠ []) (hwv : ValidWord w)
    (hlv : ∀ e ∈ l, ValidWord e) (hrv : ∀ e ∈ r, ValidWord e)
    (hnoext : ∀ e ∈ l, PrefixOf w e → e = w) :
    ∃ m, (Trie.root.insertList (l ++ w :: r)).follow w = some m ∧
      m.wordEnd = true := by
  have key : ∀ (l' : List (List Nat)), (∀ e ∈ l', ValidWord e) →
      (∀ e ∈ l', PrefixOf w e → e = w) → ∀ t : Trie,
      (t.follow w = none ∨ ∃ m, t.follow w = some m ∧ m.wordEnd = true) →
      ((t.insertList l').follow w = none ∨
        ∃ m, (t.insertList l').follow w = some m ∧ m.wordEnd = true) := by
    intro l'
    induction l' with
    | nil => exact fun _ _ t h => h
    | cons e rest ih =>
      intro hv hne t ht
      rw [Trie.insertList_cons]
      apply ih (fun x hx => hv x (List.mem_cons_of_mem e hx))
        (fun x hx => hne x (List.mem_cons_of_mem e hx))
      have hev : ValidWord e := hv e (List.mem_cons_self e rest)
      rcases ht with hnone | ⟨m, hm, hme⟩
      · by_cases hs : ((t.insert e).follow w).isSome
        · rcases Trie.insertAux_no_new e hev w 0 e t (List.drop_zero e).symm hs
            with hsome | ⟨s, hsuf⟩
          · rw [hnone] at hsome
            simp at hsome
          · have hew : e = w := hne e (List.mem_cons_self e rest) ⟨s, hsuf⟩
            subst hew
            obtain ⟨m, hm, hme⟩ :=
              Trie.insertAux_follow_self e hev e 0 t (List.drop_zero e).symm
            right
            refine ⟨m, hm, ?_⟩
            rw [hme, hnone]
            rfl
        · left
          exact Option.not_isSome_iff_eq_none.1 hs
      · obtain ⟨m', hm', hme', -⟩ :=
          Trie.insertAux_preserves e hev w 0 e t m (List.drop_zero e).symm hm
        right
        exact ⟨m', hm', by rw [hme', hme]⟩
  have hroot : Trie.root.follow w = none ∨
      ∃ m, Trie.root.follow w = some m ∧ m.wordEnd = true := by
    left
    cases w with
    | nil => exact absurd rfl hw0
    | cons c ps => exact Trie.root_follow_cons c ps
  rcases key l hlv hnoext Trie.root hroot with hnone | ⟨m, hm, hme⟩ <;>
    rw [Trie.insertList_append, Trie.insertList_cons]
  · obtain ⟨m, hm, hme⟩ := Trie.insertAux_follow_self w hwv w 0
      (Trie.root.insertList l) (List.drop_zero w).symm
    have hm2 : m.wordEnd = true := by
      rw [hme, hnone]
      rfl
    obtain ⟨m', hm', hme', -⟩ := Trie.insertList_preserves r _ m w hrv hm
    exact ⟨m', hm', by rw [hme', hm2]⟩
  · obtain ⟨m2, hm2, hme2⟩ := Trie.insertAux_follow_self w hwv w 0
      (Trie.root.insertList l) (List.drop_zero w).symm
    have hm3 : m2.wordEnd = true := by
      rw [hme2, hm]
      simpa using hme
    obtain ⟨m', hm', hme', -⟩ := Trie.insertList_preserves r _ m2 w hrv hm2
    exact ⟨m', hm', by rw [hme', hm3]⟩

/-- Witness for C5 (amended): insert `"abc"` before its extension
`"abcd"`; the node for `"abc"` is terminal. -/
theorem c5_amended_insert_marks_terminal_witness :
    ∃ m, (Trie.root.insertList ([] ++ [97, 98, 99] :: [[97, 98, 99, 100]])).follow
        [97, 98, 99] = some m ∧ m.wordEnd = true :=
  c5_amended_insert_marks_terminal [] [[97, 98, 99, 100]] [97, 98, 99]
    (by simp) (by decide) (by simp) (by decide) (by simp)

/-! ## Claim C9 -/

/-- C9: after inserting any sequence of lowercase words into a fresh
Prefix Tree, `TrieNode::contains` returns `true` on every prefix of
every inserted word (including the empty prefix and the word itself):
`contains` only tests child-edge existence along the path, never the
terminal flag. -/
theorem c9_contains_every_prefix (ws : List (List Nat)) (w p : List Nat)
    (hmem : w ∈ ws) (hv : ∀ e ∈ ws, ValidWord e) (hp : PrefixOf p w) :
    (Trie.root.insertList ws).contains p = true := by
  have key : ∀ (ws' : List (List Nat)) (t : Trie), w ∈ ws' →
      (∀ e ∈ ws', ValidWord e) → ((t.insertList ws').follow p).isSome := by
    intro ws'
    induction ws' with
    | nil => intro t h; cases h
    | cons e rest ih =>
      intro t hmem' hv'
      rw [Trie.insertList_cons]
      rcases List.mem_cons.1 hmem' with he | hrest
      · subst he
        obtain ⟨s, hs⟩ := hp
        apply Trie.insertList_isSome_preserved rest (t.insert w) p
          (fun x hx => hv' x (List.mem_cons_of_mem w hx))
        exact Trie.insertAux_follow_prefix w (hv' w (List.mem_cons_self w rest))
          p s 0 w t (List.drop_zero w).symm hs
      · exact ih (t.insert e) hrest (fun x hx => hv' x (List.mem_cons_of_mem e hx))
  rw [Trie.contains_iff_follow]
  exact key ws Trie.root hmem hv

/-- Witness for C9: insert `"test"`; `contains` accepts the prefix
`"te"`. -/
theorem c9_contains_every_prefix_witness :
    (Trie.root.insertList [[116, 101, 115, 116]]).contains [116, 101] = true :=
  c9_contains_every_prefix [[116, 101, 115, 116]] [116, 101, 115, 116]
    [116, 101] (by simp) (by decide) ⟨[115, 116], rfl⟩

/-! ## Claim C4 -/

/-- All nodes of a tree satisfy `P`. -/
inductive TrieAll (P : Trie → Prop) : Trie → Prop where
  | mk : ∀ (t : Trie), P t → (∀ c ch, t.children c = some ch → TrieAll P ch) →
      TrieAll P t

theorem TrieAll.head {P : Trie → Prop} {t : Trie} (h : TrieAll P t) : P t := by
  cases h with
  | mk _ hp _ => exact hp

theorem TrieAll.child {P : Trie → Prop} {t ch : Trie} {c : Nat}
    (h : TrieAll P t) (hc : t.children c = some ch) : TrieAll P ch := by
  cases h with
  | mk _ _ hch => exact hch c ch hc

theorem TrieAll.get {P : Trie → Prop} {t ch : Trie} {c : Nat}
    (h : TrieAll P t) (hc : t.get c = some ch) : TrieAll P ch :=
  h.child (Trie.get_range hc).2.2

/-- Terminal nodes carry words satisfying `Qw`. -/
def TrieWordsOK (Qw : List Nat → Prop) (t : Trie) : Prop :=
  t.wordEnd = true → Qw t.word

theorem TrieAll.newNode (P : Trie → Prop) (e : Bool) (w : List Nat)
    (hp : P (Trie.newNode e w)) : TrieAll P (Trie.newNode e w) := by
  refine TrieAll.mk _ hp ?_
  intro c ch hc
  simp [Trie.newNode, Trie.children] at hc

/-- Inserting a word whose `Qw` holds preserves the terminal-word
invariant: reused nodes keep their fields, created interior nodes are
non-terminal, and the created final node carries exactly the inserted
word. -/
theorem Trie.insertAux_trieAll (word : List Nat) (Qw : List Nat → Prop)
    (hq : Qw word) :
    ∀ (rem : List Nat) (l : Nat) (t : Trie), rem = word.drop l →
      TrieAll (TrieWordsOK Qw) t →
      TrieAll (TrieWordsOK Qw) (Trie.insertAux word l rem t) := by
  intro rem
  induction rem with
  | nil =>
    intro l t _ ht
    exact ht
  | cons c rest ih =>
    intro l t hrem ht
    obtain ⟨hrest, -, hl⟩ := drop_cons_facts hrem rfl
    rw [Trie.insertAux_cons]
    refine TrieAll.mk _ ?_ ?_
    · intro he
      exact ht.head he
    · intro s ch hs
      rw [Trie.children_node] at hs
      by_cases hcs : s = c - 97
      · rw [if_pos hcs] at hs
        cases hs
        cases hch : t.children (c - 97) with
        | some ch0 =>
          exact ih (l + 1) ch0 hrest (ht.child hch)
        | none =>
          apply ih (l + 1) _ hrest
          apply TrieAll.newNode
          intro he
          have hl1 : l = word.length - 1 := by
            simpa [Trie.newNode, Trie.wordEnd] using he
          have : word.take (l + 1) = word := by
            have : l + 1 = word.length := by omega
            rw [this]
            exact List.take_length word
          simpa [Trie.newNode, Trie.word, this] using hq
      · rw [if_neg hcs] at hs
        exact ht.child hs

/-- The tree built by the `solve_trie` build phase satisfies the
terminal-word invariant for the build filter. -/
theorem Board.buildTrie_trieAll (b : Board) (ws : List (List Nat)) :
    TrieAll (TrieWordsOK
      (fun w => 3 ≤ w.length ∧ b.contains_letters w = true))
      (b.buildTrie ws) := by
  have hroot : TrieAll (TrieWordsOK
      (fun w => 3 ≤ w.length ∧ b.contains_letters w = true)) Trie.root := by
    apply TrieAll.newNode
    intro he
    simp [Trie.root, Trie.newNode, Trie.wordEnd] at he
  unfold Board.buildTrie
  have key : ∀ (ws' : List (List Nat)) (t : Trie),
      TrieAll (TrieWordsOK
        (fun w => 3 ≤ w.length ∧ b.contains_letters w = true)) t →
      TrieAll (TrieWordsOK
        (fun w => 3 ≤ w.length ∧ b.contains_letters w = true))
        (ws'.foldl (fun t w =>
          if 3 ≤ w.length && b.contains_letters w then t.insert w else t) t) := by
    intro ws'
    induction ws' with
    | nil => exact fun t h => h
    | cons v rest ih =>
      intro t ht
      rw [List.foldl_cons]
      apply ih
      by_cases hc : (3 ≤ v.length && b.contains_letters v) = true
      · rw [if_pos hc]
        have hq : 3 ≤ v.length ∧ b.contains_letters v = true := by
          simpa [Bool.and_eq_true, decide_eq_true_eq] using hc
        exact Trie.insertAux_trieAll v _ hq v 0 t (List.drop_zero v).symm ht
      · rw [if_neg hc]
        exact ht
  exact key ws Trie.root hroot

/-- Whatever the fuel, words recorded by the trie-guided DFS loop come
from terminal trie nodes reachable in the stack items' subtrees. -/
theorem trieDfsLoopF_sound (b : Board) (Qw : List Nat → Prop) :
    ∀ (fuel : Nat) (stack : List TrieDfsItem) (seen sols : List (List Nat))
      (res : List (List Nat) × List (List Nat)),
      trieDfsLoopF b fuel stack seen sols = some res →
      (∀ it ∈ stack, TrieAll (TrieWordsOK Qw) it.t) →
      (∀ w ∈ sols, Qw w) →
      ∀ w ∈ res.2, Qw w := by
  intro fuel
  induction fuel with
  | zero =>
    intro stack seen sols res hres
    cases hres
  | succ f ih =>
    intro stack seen sols res hres hstack hsols
    cases stack with
    | nil =>
      cases hres
      exact hsols
    | cons curr rest =>
      unfold trieDfsLoopF at hres
      apply ih _ _ _ _ hres
      · intro it hit
        rcases List.mem_append.1 hit with hch | hrest
        · have hcurr := hstack curr (List.mem_cons_self curr rest)
          rw [List.mem_reverse] at hch
          obtain ⟨q, -, hq⟩ := List.mem_filterMap.1 hch
          cases hg : curr.t.get (b.cell q.1 q.2) with
          | none => rw [hg] at hq; cases hq
          | some next =>
            rw [hg] at hq
            cases hv : (curr.visited.set curr.x curr.y true).get q.1 q.2 with
            | true =>
              rw [hv] at hq
              simp at hq
            | false =>
              rw [hv] at hq
              simp only [Bool.false_eq_true, if_false] at hq
              cases hq
              exact hcurr.get hg
        · exact hstack it (List.mem_cons_of_mem curr hrest)
      · intro w hw
        by_cases hrec : (!decide (curr.t.word ∈ seen) && curr.t.wordEnd) = true
        · rw [if_pos hrec] at hw
          rcases List.mem_append.1 hw with hold | hnew
          · exact hsols w hold
          · have hwe : curr.t.wordEnd = true := by
              rw [Bool.and_eq_true] at hrec
              exact hrec.2
            have := (hstack curr (List.mem_cons_self curr rest)).head hwe
            rcases List.mem_singleton.1 hnew with rfl
            exact this
        · rw [if_neg hrec] at hw
          exact hsols w hw

/-- `trieStarts` propagates the invariant across start cells. -/
theorem trieStarts_sound (b : Board) (trie : Trie) (Qw : List Nat → Prop)
    (htrie : TrieAll (TrieWordsOK Qw) trie) (fuel : Nat) :
    ∀ (starts : List (Nat × Nat)) (st res : List (List Nat) × List (List Nat)),
      trieStarts b trie fuel starts st = some res →
      (∀ w ∈ st.2, Qw w) → ∀ w ∈ res.2, Qw w := by
  intro starts
  induction starts with
  | nil =>
    intro st res hres hst
    cases hres
    exact hst
  | cons p rest ih =>
    intro st res hres hst
    unfold trieStarts at hres
    cases hloop : trieDfsLoopF b fuel
        [⟨Vec2.fill b.len b.len false, p.1, p.2, trie⟩] st.1 st.2 with
    | none => rw [hloop] at hres; cases hres
    | some st' =>
      rw [hloop] at hres
      apply ih st' res hres
      apply trieDfsLoopF_sound b Qw fuel _ _ _ _ hloop
      · intro it hit
        rcases List.mem_singleton.1 hit with rfl
        exact htrie
      · exact hst

/-- C4 (amended): no dictionary word shorter than 3 characters, and no
word containing a letter absent from the board, ever appears in the
result of either solve strategy.  (The original claim's bound of 4 is
wrong: both strategies filter with `len < 3` / `len >= 3`, so 3-letter
words do appear.) -/
theorem c4_amended_results_pass_filters (b : Board) (ws : List (List Nat)) :
    (∀ w ∈ b.solve_single_threaded ws,
      3 ≤ w.length ∧ b.contains_letters w = true) ∧
    (∀ sols, b.solve_trie ws = some sols →
      ∀ w ∈ sols, 3 ≤ w.length ∧ b.contains_letters w = true) := by
  constructor
  · induction ws with
    | nil => intro w hw; cases hw
    | cons v rest ih =>
      intro w hw
      unfold Board.solve_single_threaded at hw
      by_cases h1 : (v.length < 3 || !b.contains_letters v || !b.has_word v) = true
      · rw [if_pos h1] at hw
        exact ih w hw
      · rw [if_neg h1] at hw
        have h2 : 3 ≤ v.length ∧ b.contains_letters v = true := by
          constructor
          · by_contra hlen
            have hl3 : v.length < 3 := by omega
            exact h1 (by simp [hl3])
          · cases hcl : b.contains_letters v with
            | false => exact absurd (by simp [hcl]) h1
            | true => rfl
        by_cases h3 : b.contains_word v = true
        · rw [if_pos h3] at hw
          rcases List.mem_cons.1 hw with rfl | hw'
          · exact h2
          · exact ih w hw'
        · rw [if_neg h3] at hw
          exact ih w hw
  · intro sols hsols w hw
    unfold Board.solve_trie at hsols
    cases hstarts : trieStarts b (b.buildTrie ws) (9 ^ (b.len * b.len + 1))
        b.allStarts ([], []) with
    | none => rw [hstarts] at hsols; cases hsols
    | some st =>
      rw [hstarts] at hsols
      have hst : sols = st.2 := by
        simpa using hsols.symm
      subst hst
      apply trieStarts_sound b (b.buildTrie ws) _ (b.buildTrie_trieAll ws) _
        b.allStarts ([], []) st hstarts
      · intro x hx
        cases hx
      · exact hw

/-- Witness for C4 (amended) on the 3×3 board with the single-line
dictionary `"abe"` (a 3-letter word that is found). -/
theorem c4_amended_results_pass_filters_witness :
    3 ≤ ([97, 98, 101] : List Nat).length ∧
      threeB.contains_letters [97, 98, 101] = true :=
  (c4_amended_results_pass_filters threeB [[97, 98, 101]]).1 [97, 98, 101]
    (by decide)

/-- Counterexample to C4 as stated: the 3-letter word `"abe"` (length
< 4) appears in the filter-then-verify result on the 3×3 board
`"abc\ndef\nghi"` — the code filters at length 3, not 4. -/
theorem c4_counterexample_three_letter_word_in_result :
    [97, 98, 101] ∈ threeB.solve_single_threaded [[97, 98, 101]] ∧
      ([97, 98, 101] : List Nat).length < 4 := by
  decide

/-! ## Claim C1 -/

/-- C1 (the code violates the equivalence law): on the parsed 3×3 board
`"abc\ndef\nghi"` with the one-word dictionary `"abcfedghi"` (spelt by a
Hamiltonian simple path through all nine cells), the filter-then-verify
strategy finds 1 word but the trie-guided strategy finds 0.  The cause:
`solve_trie` looks the trie up only at the *neighbors* of the current
cell and never matches the starting cell's letter, so it needs
`|word| + 1` distinct cells to find a word. -/
theorem c1_solve_strategies_disagree :
    threeB.solve_single_threaded [hamWord] = [hamWord] ∧
    threeB.solve_trie [hamWord] = some [] ∧
    (threeB.solve_single_threaded [hamWord]).length = 1 := by
  refine ⟨by decide, by decide, by decide⟩

/-! ## Adjacency bridges between the iterator and the spec relation -/

theorem adjacent_symm {p q : Nat × Nat} (h : Adjacent p q) : Adjacent q p := by
  obtain ⟨hne, h1, h2⟩ := h
  refine ⟨fun he => hne he.symm, ?_, ?_⟩ <;> omega

theorem directions_bounds : ∀ d ∈ DIRECTIONS,
    (-1 ≤ d.1 ∧ d.1 ≤ 1 ∧ -1 ≤ d.2 ∧ d.2 ≤ 1) ∧ ¬(d.1 = 0 ∧ d.2 = 0) := by
  decide

/-- Membership in the neighbor list implies adjacency, bounds and a
successful `get` (any board). -/
theorem adjacent_of_mem_neighborsList (b : Board) (p q : Nat × Nat)
    (h : q ∈ b.neighborsList p) :
    Adjacent p q ∧ q.1 < b.len ∧ q.2 < b.len := by
  rw [neighborsList_eq_filterMap] at h
  obtain ⟨d, hd, hnd⟩ := List.mem_filterMap.1 h
  unfold nstep at hnd
  by_cases hb : (b.get ((p.1 : Int) + d.1) ((p.2 : Int) + d.2)).isSome
  · rw [if_pos hb] at hnd
    obtain ⟨h1, h2, h3, h4⟩ := b.get_isSome_bounds _ _ hb
    obtain ⟨hdb, hd0⟩ := directions_bounds d hd
    cases hnd
    refine ⟨⟨?_, ?_, ?_⟩, ?_, ?_⟩
    · intro he
      have e1 : ((p.1 : Int) + d.1).toNat = p.1 := (congrArg Prod.fst he).symm
      have e2 : ((p.2 : Int) + d.2).toNat = p.2 := (congrArg Prod.snd he).symm
      omega
    · simp only
      omega
    · simp only
      omega
    · simp only
      omega
    · simp only
      omega
  · rw [if_neg hb] at hnd
    cases hnd

/-- On a square board, every in-bounds adjacent position is yielded by
the neighbor iterator. -/
theorem mem_neighborsList_of_adjacent (b : Board) (hsq : b.Square)
    (p q : Nat × Nat) (hadj : Adjacent p q) (hq1 : q.1 < b.len)
    (hq2 : q.2 < b.len) : q ∈ b.neighborsList p := by
  rw [neighborsList_eq_filterMap]
  apply List.mem_filterMap.2
  refine ⟨((q.1 : Int) - p.1, (q.2 : Int) - p.2), ?_, ?_⟩
  · obtain ⟨hne, h1, h2⟩ := hadj
    have hne' : ¬((q.1 : Int) - p.1 = 0 ∧ (q.2 : Int) - p.2 = 0) := by
      intro hcon
      obtain ⟨e1, e2⟩ := hcon
      apply hne
      have : p.1 = q.1 := by omega
      have : p.2 = q.2 := by omega
      exact Prod.ext (by omega) (by omega)
    have hd1 : (q.1 : Int) - p.1 = -1 ∨ (q.1 : Int) - p.1 = 0 ∨
        (q.1 : Int) - p.1 = 1 := by omega
    have hd2 : (q.2 : Int) - p.2 = -1 ∨ (q.2 : Int) - p.2 = 0 ∨
        (q.2 : Int) - p.2 = 1 := by omega
    rcases hd1 with e1 | e1 | e1 <;> rcases hd2 with e2 | e2 | e2 <;>
      rw [e1, e2] <;>
      first
      | decide
      | exact absurd ⟨e1, e2⟩ hne'
  · unfold nstep
    have he1 : (p.1 : Int) + ((q.1 : Int) - p.1) = (q.1 : Int) := by omega
    have he2 : (p.2 : Int) + ((q.2 : Int) - p.2) = (q.2 : Int) := by omega
    rw [he1, he2]
    have hs : (b.get (q.1 : Int) (q.2 : Int)).isSome := by
      rw [b.get_isSome_iff hsq]
      refine ⟨by omega, by omega, by omega, by omega⟩
    rw [if_pos hs]
    simp

/-- Walk-reachability: position `p` can be the `k`-th cell of a
(cell-reuse-permitting) sequence spelling `w.take (k + 1)`, following
the code's neighbor relation. -/
inductive Reach (b : Board) (w : List Nat) : Nat → Nat × Nat → Prop where
  | zero (p : Nat × Nat) (hx : p.1 < b.len) (hy : p.2 < b.len)
      (hc : w.get? 0 = some (b.cell p.1 p.2)) : Reach b w 0 p
  | succ (k : Nat) (p q : Nat × Nat) (hr : Reach b w k q)
      (hn : q ∈ b.neighborsList p) (hx : p.1 < b.len) (hy : p.2 < b.len)
      (hc : w.get? (k + 1) = some (b.cell p.1 p.2)) : Reach b w (k + 1) p

theorem Reach.bounds {b : Board} {w : List Nat} {k : Nat} {p : Nat × Nat}
    (h : Reach b w k p) : p.1 < b.len ∧ p.2 < b.len := by
  cases h with
  | zero _ hx hy _ => exact ⟨hx, hy⟩
  | succ _ _ _ _ _ hx hy _ => exact ⟨hx, hy⟩

theorem Reach.letter {b : Board} {w : List Nat} {k : Nat} {p : Nat × Nat}
    (h : Reach b w k p) : w.get? k = some (b.cell p.1 p.2) := by
  cases h with
  | zero _ _ _ hc => exact hc
  | succ _ _ _ _ _ _ _ hc => exact hc

/-! ## Characterising the `has_word` table computation -/

/-- The condition under which the `(k, i, j)` iteration of `has_word`
marks the cell: the letter matches, and (for `k > 0`) some neighbor is
marked at level `k - 1`. -/
def cellCond (b : Board) (w : List Nat) (adj : Vec3) (k i j : Nat) : Prop :=
  w.get? k = some (b.cell i j) ∧
  (1 ≤ k → ∃ q ∈ b.neighborsList (i, j), adj.get (k - 1) q.1 q.2 = true)

instance (b : Board) (w : List Nat) (adj : Vec3) (k i j : Nat) :
    Decidable (cellCond b w adj k i j) := by
  unfold cellCond
  infer_instance

theorem hwNeighbors_spec (b : Board) (w : List Nat) (k i j : Nat)
    (hk : 1 ≤ k) :
    ∀ (ns : List (Nat × Nat)) (adj : Vec3),
      hwNeighbors w k i j ns adj =
        if ∃ q ∈ ns, adj.get (k - 1) q.1 q.2 = true
        then (adj.set k i j true, decide (w.length - 1 = k))
        else (adj, false) := by
  intro ns
  induction ns with
  | nil =>
    intro adj
    simp [hwNeighbors]
  | cons q rest ih =>
    intro adj
    unfold hwNeighbors
    by_cases hq : adj.get (k - 1) q.1 q.2 = true
    · rw [if_pos hq]
      have hex : ∃ r ∈ q :: rest, adj.get (k - 1) r.1 r.2 = true :=
        ⟨q, List.mem_cons_self q rest, hq⟩
      rw [if_pos hex]
      by_cases hlast : w.length - 1 = k
      · rw [if_pos hlast]
        simp [hlast]
      · rw [if_neg hlast]
        rw [ih (adj.set k i j true)]
        have hpres : ∀ r : Nat × Nat,
            (adj.set k i j true).get (k - 1) r.1 r.2 = adj.get (k - 1) r.1 r.2 := by
          intro r
          apply Vec3.get_set_ne3
          intro hcon
          omega
        by_cases hex2 : ∃ r ∈ rest, adj.get (k - 1) r.1 r.2 = true
        · have hex2' : ∃ r ∈ rest, (adj.set k i j true).get (k - 1) r.1 r.2 = true := by
            obtain ⟨r, hr, hrt⟩ := hex2
            exact ⟨r, hr, by rw [hpres r]; exact hrt⟩
          rw [if_pos hex2', Vec3.set_set]
        · have hex2' : ¬∃ r ∈ rest, (adj.set k i j true).get (k - 1) r.1 r.2 = true := by
            intro ⟨r, hr, hrt⟩
            exact hex2 ⟨r, hr, by rw [← hpres r]; exact hrt⟩
          rw [if_neg hex2']
          simp [hlast]
    · rw [if_neg hq, ih adj]
      by_cases hex2 : ∃ r ∈ rest, adj.get (k - 1) r.1 r.2 = true
      · have hex : ∃ r ∈ q :: rest, adj.get (k - 1) r.1 r.2 = true := by
          obtain ⟨r, hr, hrt⟩ := hex2
          exact ⟨r, List.mem_cons_of_mem q hr, hrt⟩
        rw [if_pos hex, if_pos hex2]
      · have hex : ¬∃ r ∈ q :: rest, adj.get (k - 1) r.1 r.2 = true := by
          intro ⟨r, hr, hrt⟩
          rcases List.mem_cons.1 hr with rfl | hr'
          · exact hq hrt
          · exact hex2 ⟨r, hr', hrt⟩
        rw [if_neg hex, if_neg hex2]

theorem hwCell_spec (b : Board) (w : List Nat) (k i j : Nat) (adj : Vec3) :
    hwCell b w k i j adj =
      (if cellCond b w adj k i j then adj.set k i j true else adj,
       decide (cellCond b w adj k i j ∧ w.length - 1 = k ∧ 1 ≤ k)) := by
  unfold hwCell
  by_cases hlet : w.get? k = some (b.cell i j)
  · rw [if_neg (by simpa using hlet)]
    cases k with
    | zero =>
      rw [if_pos rfl]
      have hc : cellCond b w adj 0 i j := ⟨hlet, by omega⟩
      rw [if_pos hc]
      simp
    | succ k' =>
      rw [if_neg (by omega)]
      rw [hwNeighbors_spec b w (k' + 1) i j (by omega)]
      by_cases hex : ∃ q ∈ b.neighborsList (i, j),
          adj.get (k' + 1 - 1) q.1 q.2 = true
      · rw [if_pos hex]
        have hc : cellCond b w adj (k' + 1) i j := ⟨hlet, fun _ => hex⟩
        rw [if_pos hc]
        by_cases hlast : w.length - 1 = k' + 1
        · simp [hlast, hc]
        · simp [hlast]
      · rw [if_neg hex]
        have hc : ¬cellCond b w adj (k' + 1) i j := by
          intro hcc
          exact hex (hcc.2 (by omega))
        rw [if_neg hc]
        simp [hc]
  · rw [if_pos (by simpa using hlet)]
    have hc : ¬cellCond b w adj k i j := fun hcc => hlet hcc.1
    rw [if_neg hc]
    simp [hc]

/-- The marking condition only reads levels below `k`, so level-`k`
writes do not disturb it. -/
theorem cellCond_set_invariant (b : Board) (w : List Nat) (adj : Vec3)
    (k i j x y : Nat) :
    cellCond b w (adj.set k x y true) k i j ↔ cellCond b w adj k i j := by
  unfold cellCond
  constructor <;> intro ⟨h1, h2⟩ <;> refine ⟨h1, fun hk => ?_⟩ <;>
    obtain ⟨q, hq, hqt⟩ := h2 hk
  · refine ⟨q, hq, ?_⟩
    rw [← hqt]
    symm
    apply Vec3.get_set_ne3
    intro hcon
    omega
  · refine ⟨q, hq, ?_⟩
    rw [← hqt]
    apply Vec3.get_set_ne3
    intro hcon
    omega

/-- For in-bounds cells, the marking condition is exactly
walk-reachability, provided level `k - 1` of the table is exact. -/
theorem cellCond_iff_reach (b : Board) (w : List Nat) (adj : Vec3)
    (k i j : Nat) (hi : i < b.len) (hj : j < b.len)
    (hbelow : ∀ i' j', 1 ≤ k →
      (adj.get (k - 1) i' j' = true ↔ Reach b w (k - 1) (i', j'))) :
    cellCond b w adj k i j ↔ Reach b w k (i, j) := by
  cases k with
  | zero =>
    constructor
    · intro hcc
      exact Reach.zero (i, j) hi hj hcc.1
    · intro hr
      exact ⟨hr.letter, by omega⟩
  | succ k' =>
    constructor
    · intro ⟨h1, h2⟩
      obtain ⟨q, hq, hqt⟩ := h2 (by omega)
      have hrq : Reach b w k' q := by
        have := (hbelow q.1 q.2 (by omega)).1
        simp only [Nat.add_sub_cancel] at this
        exact this hqt
      exact Reach.succ k' (i, j) q hrq hq hi hj h1
    · intro hr
      cases hr with
      | succ _ _ q hrq hn hx hy hc =>
        refine ⟨hc, fun _ => ⟨q, hn, ?_⟩⟩
        have := (hbelow q.1 q.2 (by omega)).2
        simp only [Nat.add_sub_cancel] at this
        exact this hrq

/-- Dimension and length invariant of the path-state table. -/
def AdjDims (b : Board) (w : List Nat) (adj : Vec3) : Prop :=
  adj.width = w.length ∧ adj.height = b.len ∧ adj.depth = b.len ∧ adj.WF

theorem Vec3.set_fields3 (v : Vec3) (x y z : Nat) (val : Bool) :
    (v.set x y z val).width = v.width ∧ (v.set x y z val).height = v.height ∧
      (v.set x y z val).depth = v.depth := by
  unfold Vec3.set
  cases v.idx x y z <;> exact ⟨rfl, rfl, rfl⟩

theorem AdjDims.set {b : Board} {w : List Nat} {adj : Vec3}
    (h : AdjDims b w adj) (x y z : Nat) (val : Bool) :
    AdjDims b w (adj.set x y z val) := by
  obtain ⟨h1, h2, h3, h4⟩ := h
  obtain ⟨e1, e2, e3⟩ := Vec3.set_fields3 adj x y z val
  exact ⟨by rw [e1, h1], by rw [e2, h2], by rw [e3, h3],
    Vec3.set_wf3 adj x y z val h4⟩

/-- Setting `true` never turns a `true` cell off. -/
theorem Vec3.get_set_true_mono (v : Vec3) (x y z a c e : Nat)
    (h : v.get a c e = true) : (v.set x y z true).get a c e = true := by
  by_cases heq : a = x ∧ c = y ∧ e = z
  · obtain ⟨rfl, rfl, rfl⟩ := heq
    cases hidx : v.idx a c e with
    | none =>
      unfold Vec3.get at h
      rw [hidx] at h
      cases h
    | some n =>
      have hn : n < v.data.length := by
        unfold Vec3.get at h
        rw [hidx] at h
        have h' : (v.data.get? n).getD false = true := h
        by_contra hge
        rw [List.get?_eq_getElem?, List.getElem?_eq_none (by omega)] at h'
        cases h'
      have hset : v.set a c e true =
          Vec3.mk v.height v.depth v.width (v.data.set n true) := by
        unfold Vec3.set
        rw [hidx]
      have hidx2 : (Vec3.mk v.height v.depth v.width
          (v.data.set n true)).idx a c e = some n := by
        unfold Vec3.idx at hidx ⊢
        exact hidx
      rw [hset]
      unfold Vec3.get
      rw [hidx2]
      show ((v.data.set n true).get? n).getD false = true
      rw [List.get?_eq_getElem?, List.getElem?_set_self (by simpa using hn)]
      rfl
  · rw [Vec3.get_set_ne3 v x y z a c e true heq]
    exact h

theorem hwJ_cons_true {b : Board} {w : List Nat} {k i j : Nat}
    (js : List Nat) {adj : Vec3} (h : (hwCell b w k i j adj).2 = true) :
    hwJ b w k i (j :: js) adj = ((hwCell b w k i j adj).1, true) := by
  rcases hcell : hwCell b w k i j adj with ⟨adj', flag⟩
  rw [hcell] at h
  simp only at h
  subst h
  simp only [hwJ, hcell]

theorem hwJ_cons_false {b : Board} {w : List Nat} {k i j : Nat}
    (js : List Nat) {adj : Vec3} (h : (hwCell b w k i j adj).2 = false) :
    hwJ b w k i (j :: js) adj = hwJ b w k i js (hwCell b w k i j adj).1 := by
  rcases hcell : hwCell b w k i j adj with ⟨adj', flag⟩
  rw [hcell] at h
  simp only at h
  subst h
  simp only [hwJ, hcell]

/-- Full behaviour of the `j` loop at table level `k`, row `i`. -/
theorem hwJ_spec (b : Board) (w : List Nat) (k i : Nat) (hi : i < b.len)
    (hkL : k < w.length) :
    ∀ (js : List Nat) (adj : Vec3),
      (∀ j ∈ js, j < b.len) →
      AdjDims b w adj →
      (∀ i' j', 1 ≤ k →
        (adj.get (k - 1) i' j' = true ↔ Reach b w (k - 1) (i', j'))) →
      ∃ adj2 flag,
        hwJ b w k i js adj = (adj2, flag) ∧
        AdjDims b w adj2 ∧
        (∀ k' i' j', k' ≠ k → adj2.get k' i' j' = adj.get k' i' j') ∧
        (∀ x y z, adj.get x y z = true → adj2.get x y z = true) ∧
        (∀ i' j', adj2.get k i' j' = true →
          adj.get k i' j' = true ∨ Reach b w k (i', j')) ∧
        (flag = true ↔
          w.length - 1 = k ∧ 1 ≤ k ∧ ∃ j ∈ js, Reach b w k (i, j)) ∧
        (flag = false → ∀ j ∈ js, Reach b w k (i, j) → adj2.get k i j = true) := by
  intro js
  induction js with
  | nil =>
    intro adj hjs hdims hbelow
    refine ⟨adj, false, rfl, hdims, fun _ _ _ _ => rfl, fun _ _ _ h => h,
      fun _ _ h => Or.inl h, ?_, ?_⟩
    · constructor
      · intro h; cases h
      · intro hcon
        obtain ⟨-, -, j, hj, -⟩ := hcon
        cases hj
    · intro _ j hj
      cases hj
  | cons j js' ih =>
    intro adj hjs hdims hbelow
    have hj : j < b.len := hjs j (List.mem_cons_self j js')
    have hcell1 : (hwCell b w k i j adj).1 =
        if cellCond b w adj k i j then adj.set k i j true else adj := by
      rw [hwCell_spec]
    have hcell2 : (hwCell b w k i j adj).2 =
        decide (cellCond b w adj k i j ∧ w.length - 1 = k ∧ 1 ≤ k) := by
      rw [hwCell_spec]
    have hbridge : cellCond b w adj k i j ↔ Reach b w k (i, j) :=
      cellCond_iff_reach b w adj k i j hi hj hbelow
    by_cases hD : cellCond b w adj k i j ∧ w.length - 1 = k ∧ 1 ≤ k
    · -- early-return (only possible at the final level)
      have hflag : (hwCell b w k i j adj).2 = true := by
        rw [hcell2]
        exact decide_eq_true hD
      have hstep := hwJ_cons_true js' hflag
      rw [hcell1, if_pos hD.1] at hstep
      refine ⟨adj.set k i j true, true, hstep, hdims.set k i j true, ?_, ?_, ?_, ?_, ?_⟩
      · intro k' i' j' hne
        apply Vec3.get_set_ne3
        intro hcon
        omega
      · intro x y z h
        exact Vec3.get_set_true_mono adj k i j x y z h
      · intro i' j' h
        by_cases heq : i' = i ∧ j' = j
        · obtain ⟨rfl, rfl⟩ := heq
          exact Or.inr (hbridge.1 hD.1)
        · left
          rw [← h]
          symm
          apply Vec3.get_set_ne3
          intro hcon
          exact heq ⟨hcon.2.1, hcon.2.2⟩
      · constructor
        · intro _
          exact ⟨hD.2.1, hD.2.2, j, List.mem_cons_self j js', hbridge.1 hD.1⟩
        · intro _; rfl
      · intro h; cases h
    · have hflag : (hwCell b w k i j adj).2 = false := by
        rw [hcell2]
        exact decide_eq_false hD
      have hstep := hwJ_cons_false js' hflag
      rw [hcell1] at hstep
      by_cases hC : cellCond b w adj k i j
      · -- marked, no early return
        rw [if_pos hC] at hstep
        have hbelow' : ∀ i' j', 1 ≤ k →
            ((adj.set k i j true).get (k - 1) i' j' = true ↔
              Reach b w (k - 1) (i', j')) := by
          intro i' j' hk1
          rw [Vec3.get_set_ne3]
          · exact hbelow i' j' hk1
          · intro hcon
            omega
        obtain ⟨adj2, flag, heq, hdims2, hpres, hmono, hsound, hflagiff, hcomp⟩ :=
          ih (adj.set k i j true) (fun x hx => hjs x (List.mem_cons_of_mem j hx))
            (hdims.set k i j true) hbelow'
        refine ⟨adj2, flag, hstep.trans heq, hdims2, ?_, ?_, ?_, ?_, ?_⟩
        · intro k' i' j' hne
          rw [hpres k' i' j' hne]
          apply Vec3.get_set_ne3
          intro hcon
          omega
        · intro x y z h
          exact hmono x y z (Vec3.get_set_true_mono adj k i j x y z h)
        · intro i' j' h
          rcases hsound i' j' h with hold | hr
          · by_cases heq2 : i' = i ∧ j' = j
            · obtain ⟨rfl, rfl⟩ := heq2
              exact Or.inr (hbridge.1 hC)
            · left
              rw [← hold]
              symm
              apply Vec3.get_set_ne3
              intro hcon
              exact heq2 ⟨hcon.2.1, hcon.2.2⟩
          · exact Or.inr hr
        · rw [hflagiff]
          constructor
          · intro ⟨h1, h2, j', hj', hr⟩
            exact ⟨h1, h2, j', List.mem_cons_of_mem j hj', hr⟩
          · intro ⟨h1, h2, j', hj', hr⟩
            rcases List.mem_cons.1 hj' with rfl | hj''
            · exact absurd ⟨hC, h1, h2⟩ hD
            · exact ⟨h1, h2, j', hj'', hr⟩
        · intro hf j' hj' hr
          rcases List.mem_cons.1 hj' with rfl | hj''
          · apply hmono
            apply Vec3.get_set_eq3
            · exact hdims.2.2.2
            · rw [hdims.1]; exact hkL
            · rw [hdims.2.1]; exact hi
            · rw [hdims.2.2.1]; exact hj
          · exact hcomp hf j' hj'' hr
      · -- not marked
        rw [if_neg hC] at hstep
        obtain ⟨adj2, flag, heq, hdims2, hpres, hmono, hsound, hflagiff, hcomp⟩ :=
          ih adj (fun x hx => hjs x (List.mem_cons_of_mem j hx)) hdims hbelow
        refine ⟨adj2, flag, hstep.trans heq, hdims2, hpres, hmono, hsound, ?_, ?_⟩
        · rw [hflagiff]
          constructor
          · intro ⟨h1, h2, j', hj', hr⟩
            exact ⟨h1, h2, j', List.mem_cons_of_mem j hj', hr⟩
          · intro ⟨h1, h2, j', hj', hr⟩
            rcases List.mem_cons.1 hj' with rfl | hj''
            · exact absurd (hbridge.2 hr) hC
            · exact ⟨h1, h2, j', hj'', hr⟩
        · intro hf j' hj' hr
          rcases List.mem_cons.1 hj' with rfl | hj''
          · exact absurd (hbridge.2 hr) hC
          · exact hcomp hf j' hj'' hr

theorem hwI_cons_true {b : Board} {w : List Nat} {k i : Nat}
    (is : List Nat) {adj : Vec3} (h : (hwJ b w k i (List.range b.len) adj).2 = true) :
    hwI b w k (i :: is) adj = ((hwJ b w k i (List.range b.len) adj).1, true) := by
  rcases hrow : hwJ b w k i (List.range b.len) adj with ⟨adj', flag⟩
  rw [hrow] at h
  simp only at h
  subst h
  simp only [hwI, hrow]

theorem hwI_cons_false {b : Board} {w : List Nat} {k i : Nat}
    (is : List Nat) {adj : Vec3} (h : (hwJ b w k i (List.range b.len) adj).2 = false) :
    hwI b w k (i :: is) adj = hwI b w k is (hwJ b w k i (List.range b.len) adj).1 := by
  rcases hrow : hwJ b w k i (List.range b.len) adj with ⟨adj', flag⟩
  rw [hrow] at h
  simp only at h
  subst h
  simp only [hwI, hrow]

/-- Full behaviour of the `i` loop at table level `k`. -/
theorem hwI_spec (b : Board) (w : List Nat) (k : Nat) (hkL : k < w.length) :
    ∀ (is : List Nat) (adj : Vec3),
      (∀ i ∈ is, i < b.len) →
      AdjDims b w adj →
      (∀ i' j', 1 ≤ k →
        (adj.get (k - 1) i' j' = true ↔ Reach b w (k - 1) (i', j'))) →
      ∃ adj2 flag,
        hwI b w k is adj = (adj2, flag) ∧
        AdjDims b w adj2 ∧
        (∀ k' i' j', k' ≠ k → adj2.get k' i' j' = adj.get k' i' j') ∧
        (∀ x y z, adj.get x y z = true → adj2.get x y z = true) ∧
        (∀ i' j', adj2.get k i' j' = true →
          adj.get k i' j' = true ∨ Reach b w k (i', j')) ∧
        (flag = true ↔ w.length - 1 = k ∧ 1 ≤ k ∧
          ∃ i ∈ is, ∃ j, j < b.len ∧ Reach b w k (i, j)) ∧
        (flag = false → ∀ i ∈ is, ∀ j, j < b.len →
          Reach b w k (i, j) → adj2.get k i j = true) := by
  intro is
  induction is with
  | nil =>
    intro adj his hdims hbelow
    refine ⟨adj, false, rfl, hdims, fun _ _ _ _ => rfl, fun _ _ _ h => h,
      fun _ _ h => Or.inl h, ?_, ?_⟩
    · constructor
      · intro h; cases h
      · intro hcon
        obtain ⟨-, -, i, hi, -⟩ := hcon
        cases hi
    · intro _ i hi
      cases hi
  | cons i is' ih =>
    intro adj his hdims hbelow
    have hi : i < b.len := his i (List.mem_cons_self i is')
    obtain ⟨adjr, flagr, hrow, hdimsr, hpresr, hmonor, hsoundr, hflagr, hcompr⟩ :=
      hwJ_spec b w k i hi hkL (List.range b.len) adj
        (fun j hj => List.mem_range.1 hj) hdims hbelow
    cases flagr with
    | true =>
      have hstep := hwI_cons_true is' (by rw [hrow])
      rw [hrow] at hstep
      refine ⟨adjr, true, hstep, hdimsr, hpresr, hmonor, hsoundr, ?_, ?_⟩
      · constructor
        · intro _
          obtain ⟨h1, h2, j, hj, hr⟩ := hflagr.1 rfl
          exact ⟨h1, h2, i, List.mem_cons_self i is',
            j, List.mem_range.1 hj, hr⟩
        · intro _; rfl
      · intro h; cases h
    | false =>
      have hstep := hwI_cons_false is' (by rw [hrow])
      rw [hrow] at hstep
      have hbelow' : ∀ i' j', 1 ≤ k →
          (adjr.get (k - 1) i' j' = true ↔ Reach b w (k - 1) (i', j')) := by
        intro i' j' hk1
        rw [hpresr (k - 1) i' j' (by omega)]
        exact hbelow i' j' hk1
      obtain ⟨adj2, flag, heq, hdims2, hpres, hmono, hsound, hflagiff, hcomp⟩ :=
        ih adjr (fun x hx => his x (List.mem_cons_of_mem i hx)) hdimsr hbelow'
      refine ⟨adj2, flag, hstep.trans heq, hdims2, ?_, ?_, ?_, ?_, ?_⟩
      · intro k' i' j' hne
        rw [hpres k' i' j' hne, hpresr k' i' j' hne]
      · intro x y z h
        exact hmono x y z (hmonor x y z h)
      · intro i' j' h
        rcases hsound i' j' h with hold | hr
        · exact hsoundr i' j' hold
        · exact Or.inr hr
      · rw [hflagiff]
        constructor
        · intro ⟨h1, h2, i', hi', j, hjn, hr⟩
          exact ⟨h1, h2, i', List.mem_cons_of_mem i hi', j, hjn, hr⟩
        · intro ⟨h1, h2, i', hi', j, hjn, hr⟩
          rcases List.mem_cons.1 hi' with rfl | hi''
          · exfalso
            have : (false : Bool) = true := hflagr.2
              ⟨h1, h2, j, List.mem_range.2 hjn, hr⟩
            cases this
          · exact ⟨h1, h2, i', hi'', j, hjn, hr⟩
      · intro hf i' hi' j hjn hr
        rcases List.mem_cons.1 hi' with rfl | hi''
        · exact hmono _ _ _ (hcompr rfl j (List.mem_range.2 hjn) hr)
        · exact hcomp hf i' hi'' j hjn hr

/-- The table invariant after processing levels `0 … K - 1`. -/
def TableInv (b : Board) (w : List Nat) (adj : Vec3) (K : Nat) : Prop :=
  AdjDims b w adj ∧
  (∀ k i j, k < K → (adj.get k i j = true ↔ Reach b w k (i, j))) ∧
  (∀ k i j, K ≤ k → adj.get k i j = false)

/-- Processing one full level either reports the early-return at the
final level or advances the invariant by one level. -/
theorem hwI_advance (b : Board) (w : List Nat) (k : Nat) (hkL : k < w.length)
    (adj : Vec3) (hinv : TableInv b w adj k) :
    ∃ adj2 flag, hwI b w k (List.range b.len) adj = (adj2, flag) ∧
      (flag = true ↔ w.length - 1 = k ∧ 1 ≤ k ∧ ∃ p, Reach b w k p) ∧
      (flag = false → TableInv b w adj2 (k + 1)) := by
  obtain ⟨hdims, hexact, hzero⟩ := hinv
  have hbelow : ∀ i' j', 1 ≤ k →
      (adj.get (k - 1) i' j' = true ↔ Reach b w (k - 1) (i', j')) := by
    intro i' j' hk1
    exact hexact (k - 1) i' j' (by omega)
  obtain ⟨adj2, flag, heq, hdims2, hpres, hmono, hsound, hflagiff, hcomp⟩ :=
    hwI_spec b w k hkL (List.range b.len) adj
      (fun i hi => List.mem_range.1 hi) hdims hbelow
  refine ⟨adj2, flag, heq, ?_, ?_⟩
  · rw [hflagiff]
    constructor
    · intro hcon
      obtain ⟨h1, h2, i, -, j, -, hr⟩ := hcon
      exact ⟨h1, h2, (i, j), hr⟩
    · intro hcon
      obtain ⟨h1, h2, p, hr⟩ := hcon
      obtain ⟨hb1, hb2⟩ := hr.bounds
      exact ⟨h1, h2, p.1, List.mem_range.2 hb1, p.2, hb2, hr⟩
  · intro hf
    refine ⟨hdims2, ?_, ?_⟩
    · intro k' i j hk'
      by_cases hkk : k' = k
      · subst hkk
        constructor
        · intro h
          rcases hsound i j h with hold | hr
          · rw [hzero k' i j (Nat.le_refl k')] at hold
            cases hold
          · exact hr
        · intro hr
          obtain ⟨hb1, hb2⟩ := hr.bounds
          exact hcomp hf i (List.mem_range.2 hb1) j hb2 hr
      · rw [hpres k' i j hkk]
        exact hexact k' i j (by omega)
    · intro k' i j hk'
      rw [hpres k' i j (by omega)]
      exact hzero k' i j (by omega)

theorem hwK_cons_true {b : Board} {w : List Nat} {k : Nat}
    (ks : List Nat) {adj : Vec3} (h : (hwI b w k (List.range b.len) adj).2 = true) :
    hwK b w (k :: ks) adj = ((hwI b w k (List.range b.len) adj).1, true) := by
  rcases hlev : hwI b w k (List.range b.len) adj with ⟨adj', flag⟩
  rw [hlev] at h
  simp only at h
  subst h
  simp only [hwK, hlev]

theorem hwK_cons_false {b : Board} {w : List Nat} {k : Nat}
    (ks : List Nat) {adj : Vec3} (h : (hwI b w k (List.range b.len) adj).2 = false) :
    hwK b w (k :: ks) adj = hwK b w ks (hwI b w k (List.range b.len) adj).1 := by
  rcases hlev : hwI b w k (List.range b.len) adj with ⟨adj', flag⟩
  rw [hlev] at h
  simp only at h
  subst h
  simp only [hwK, hlev]

/-- Running the `k` loop over the remaining levels `k, …, L - 1` (with
`k ≥ 1` and the invariant up to `k`) returns `true` exactly when the
final level is reachable somewhere. -/
theorem hwK_range' (b : Board) (w : List Nat) :
    ∀ (cnt k : Nat), 1 ≤ cnt → k + cnt = w.length → 1 ≤ k →
      ∀ adj, TableInv b w adj k →
      ((hwK b w (List.range' k cnt) adj).2 = true ↔
        ∃ p, Reach b w (w.length - 1) p) := by
  intro cnt
  induction cnt with
  | zero => intro k h; omega
  | succ c ih =>
    intro k _hc hsum hk adj hinv
    have hkL : k < w.length := by omega
    obtain ⟨adj2, flag, heq, hflagiff, hadv⟩ := hwI_advance b w k hkL adj hinv
    rw [List.range'_succ]
    cases flag with
    | true =>
      rw [hwK_cons_true (List.range' (k + 1) c) (by rw [heq])]
      simp only
      obtain ⟨h1, -, p, hr⟩ := hflagiff.1 rfl
      constructor
      · intro _
        refine ⟨p, ?_⟩
        rw [h1]
        exact hr
      · intro _
        trivial
    | false =>
      rw [hwK_cons_false (List.range' (k + 1) c) (by rw [heq])]
      rw [heq]
      simp only
      have hinv2 := hadv rfl
      cases c with
      | zero =>
        -- `k` was the final level and its loop raised no flag:
        -- no cell of the final level is reachable
        have hklast : w.length - 1 = k := by omega
        simp only [hwK]
        constructor
        · intro h; cases h
        · intro ⟨p, hr⟩
          exfalso
          have : (false : Bool) = true :=
            hflagiff.2 ⟨hklast, hk, p, hklast ▸ hr⟩
          cases this
      | succ c' =>
        exact ih (k + 1) (by omega) (by omega) (by omega) adj2 hinv2

/-- `has_word` succeeds exactly when the final word position is
walk-reachable somewhere on the board (for words of length ≥ 2). -/
theorem has_word_iff_reach (b : Board) (w : List Nat) (hL : 2 ≤ w.length) :
    b.has_word w = true ↔ ∃ p, Reach b w (w.length - 1) p := by
  unfold Board.has_word
  have hinv0 : TableInv b w (Vec3.fill w.length b.len b.len false) 0 := by
    refine ⟨⟨rfl, rfl, rfl, ?_⟩, ?_, ?_⟩
    · unfold Vec3.WF Vec3.fill
      simp
    · intro k i j hk
      omega
    · intro k i j _
      rw [Vec3.get_fill3]
      split <;> rfl
  obtain ⟨adj2, flag, heq, hflagiff, hadv⟩ :=
    hwI_advance b w 0 (by omega) _ hinv0
  have hflag : flag = false := by
    cases flag with
    | false => rfl
    | true =>
      obtain ⟨-, h2, -⟩ := hflagiff.1 rfl
      omega
  subst hflag
  obtain ⟨m, hm⟩ : ∃ m, w.length = m + 1 := ⟨w.length - 1, by omega⟩
  have hrange : List.range w.length = 0 :: List.range' 1 (w.length - 1) := by
    rw [hm, List.range_eq_range', List.range'_succ]
    simp
  rw [hrange, hwK_cons_false (List.range' 1 (w.length - 1)) (by rw [heq]),
    heq]
  exact hwK_range' b w (w.length - 1) 1 (by omega) (by omega) (by omega) adj2
    (hadv rfl)

/-! ## Walks: from the inductive relation to the spec-level predicate -/

theorem forall2_exists_right {α β : Type} {R : α → β → Prop} :
    ∀ {l₁ : List α} {l₂ : List β}, List.Forall₂ R l₁ l₂ →
      ∀ a ∈ l₁, ∃ c ∈ l₂, R a c := by
  intro l₁
  induction l₁ with
  | nil =>
    intro l₂ _ a ha
    cases ha
  | cons x xs ih =>
    intro l₂ h a ha
    cases h with
    | cons h1 h2 =>
      rcases List.mem_cons.1 ha with rfl | ha'
      · exact ⟨_, List.mem_cons_self _ _, h1⟩
      · obtain ⟨c, hc1, hc2⟩ := ih h2 a ha'
        exact ⟨c, List.mem_cons_of_mem _ hc1, hc2⟩

/-- Every cell of a spelled walk is in bounds. -/
theorem spellsWalk_mem_bounds {b : Board} {ps : List (Nat × Nat)}
    {v : List Nat} (h : SpellsWalk b ps v) {p : Nat × Nat} (hp : p ∈ ps) :
    p.1 < b.len ∧ p.2 < b.len := by
  obtain ⟨hfa, -⟩ := h
  obtain ⟨c, -, hc⟩ := forall2_exists_right hfa p hp
  exact ⟨hc.1, hc.2.1⟩

theorem forall2_append_singleton {α β : Type} {R : α → β → Prop} :
    ∀ (l₁ : List α) (l₂ : List β) (a : α) (c : β),
      l₁.length = l₂.length → List.Forall₂ R (l₁ ++ [a]) (l₂ ++ [c]) →
      List.Forall₂ R l₁ l₂ ∧ R a c := by
  intro l₁
  induction l₁ with
  | nil =>
    intro l₂ a c hlen h
    cases l₂ with
    | nil =>
      cases h with
      | cons h1 h2 => exact ⟨List.Forall₂.nil, h1⟩
    | cons y ys => simp at hlen
  | cons x xs ih =>
    intro l₂ a c hlen h
    cases l₂ with
    | nil => simp at hlen
    | cons y ys =>
      cases h with
      | cons h1 h2 =>
        obtain ⟨h3, h4⟩ := ih ys a c (by simpa using hlen) h2
        exact ⟨List.Forall₂.cons h1 h3, h4⟩

theorem take_succ_of_get? {w : List Nat} {m : Nat} {c : Nat}
    (h : w.get? m = some c) : w.take (m + 1) = w.take m ++ [c] := by
  rw [List.take_succ, List.get?_eq_getElem?] at *
  rw [h]
  rfl

/-- Extending a spelled walk by one adjacent in-bounds cell. -/
theorem spellsWalk_snoc (b : Board) (w : List Nat) (ps : List (Nat × Nat))
    (m : Nat) (p : Nat × Nat) (c : Nat)
    (hwalk : SpellsWalk b ps (w.take m)) (hc : w.get? m = some c)
    (hp1 : p.1 < b.len) (hp2 : p.2 < b.len) (hcell : b.cell p.1 p.2 = c)
    (hadj : ∀ q, ps.getLast? = some q → Adjacent q p) :
    SpellsWalk b (ps ++ [p]) (w.take (m + 1)) := by
  obtain ⟨hfa, hch⟩ := hwalk
  rw [take_succ_of_get? hc]
  constructor
  · exact List.rel_append hfa
      (List.Forall₂.cons ⟨hp1, hp2, hcell⟩ List.Forall₂.nil)
  · rw [List.chain'_append]
    refine ⟨hch, List.chain'_singleton p, ?_⟩
    intro x hx y hy
    have hyp : p = y := by simpa using hy
    subst hyp
    exact hadj x (by simpa using hx)

/-- Decomposing a spelled walk at its last cell. -/
theorem spellsWalk_snoc_elim (b : Board) (w : List Nat)
    (ps : List (Nat × Nat)) (m : Nat) (p : Nat × Nat)
    (hwalk : SpellsWalk b (ps ++ [p]) (w.take (m + 1))) (hlen : ps.length = m) :
    SpellsWalk b ps (w.take m) ∧ p.1 < b.len ∧ p.2 < b.len ∧
      w.get? m = some (b.cell p.1 p.2) ∧
      ∀ q, ps.getLast? = some q → Adjacent q p := by
  obtain ⟨hfa, hch⟩ := hwalk
  have hlen2 := List.Forall₂.length_eq hfa
  rw [List.length_append, List.length_take] at hlen2
  have hmL : m < w.length := by
    simp at hlen2
    omega
  obtain ⟨cm, hcm⟩ : ∃ cm, w.get? m = some cm := by
    have := (get?_isSome_iff w m).2 hmL
    exact Option.isSome_iff_exists.1 this
  rw [take_succ_of_get? hcm] at hfa
  have hlen3 : (w.take m).length = m := by
    rw [List.length_take]
    omega
  obtain ⟨hfa1, hfa2⟩ := forall2_append_singleton ps (w.take m) p cm
    (by omega) hfa
  obtain ⟨hch1, -, hch3⟩ := List.chain'_append.1 hch
  refine ⟨⟨hfa1, hch1⟩, hfa2.1, hfa2.2.1, ?_, ?_⟩
  · rw [hcm, hfa2.2.2]
  · intro q hq
    exact hch3 q (by simpa using hq) p (by simp)

/-- `Reach` is existence of a spelled walk ending at the cell (square
boards). -/
theorem reach_iff_walk (b : Board) (hsq : b.Square) (w : List Nat) :
    ∀ (k : Nat) (p : Nat × Nat),
      Reach b w k p ↔ ∃ ps, ps.length = k + 1 ∧
        SpellsWalk b ps (w.take (k + 1)) ∧ ps.getLast? = some p := by
  intro k
  induction k with
  | zero =>
    intro p
    constructor
    · intro hr
      cases hr with
      | zero _ hx hy hc =>
        refine ⟨[p], rfl, ?_, rfl⟩
        constructor
        · rw [take_succ_of_get? hc]
          exact List.Forall₂.cons ⟨hx, hy, rfl⟩ List.Forall₂.nil
        · exact List.chain'_singleton p
    · intro ⟨ps, hlen, hwalk, hlast⟩
      cases ps with
      | nil => cases hlen
      | cons q qs =>
        cases qs with
        | cons q2 qs2 => simp at hlen
        | nil =>
          have hqp : q = p := by simpa using hlast
          subst hqp
          obtain ⟨hfa, -⟩ := hwalk
          have hmL : 0 < w.length := by
            have := List.Forall₂.length_eq hfa
            simp at this
            omega
          obtain ⟨c0, hc0⟩ : ∃ c0, w.get? 0 = some c0 := by
            have := (get?_isSome_iff w 0).2 hmL
            exact Option.isSome_iff_exists.1 this
          rw [take_succ_of_get? hc0] at hfa
          simp at hfa
          obtain ⟨h1, h2, h3⟩ := hfa
          exact Reach.zero q h1 h2 (by rw [hc0, h3])
  | succ k ih =>
    intro p
    constructor
    · intro hr
      cases hr with
      | succ _ _ q hrq hn hx hy hc =>
        obtain ⟨ps, hlen, hwalk, hlast⟩ := (ih q).1 hrq
        refine ⟨ps ++ [p], by simp [hlen], ?_, by simp⟩
        apply spellsWalk_snoc b w ps (k + 1) p (b.cell p.1 p.2) hwalk hc hx hy rfl
        intro q' hq'
        have hqq : q' = q := by
          rw [hlast] at hq'
          exact (Option.some.inj hq').symm ▸ rfl
        subst hqq
        exact adjacent_symm (adjacent_of_mem_neighborsList b p q' hn).1
    · intro ⟨ps, hlen, hwalk, hlast⟩
      have hne : ps ≠ [] := by
        intro h
        rw [h] at hlen
        cases hlen
      obtain ⟨qs, q, hqs⟩ : ∃ qs q, ps = qs ++ [q] := by
        refine ⟨ps.dropLast, ps.getLast hne, ?_⟩
        exact (List.dropLast_concat_getLast hne).symm
      subst hqs
      have hqp : q = p := by
        rw [List.getLast?_concat] at hlast
        exact Option.some.inj hlast
      subst hqp
      have hlen2 : qs.length = k + 1 := by
        rw [List.length_append] at hlen
        simpa using hlen
      obtain ⟨hwalk1, hb1, hb2, hc, hadj⟩ :=
        spellsWalk_snoc_elim b w qs (k + 1) q hwalk hlen2
      have hqs_ne : qs ≠ [] := by
        intro h
        rw [h] at hlen2
        cases hlen2
      obtain ⟨r, hr⟩ : ∃ r, qs.getLast? = some r :=
        ⟨qs.getLast hqs_ne, List.getLast?_eq_getLast qs hqs_ne⟩
      have hreach : Reach b w k r := by
        apply (ih r).2
        exact ⟨qs, hlen2, hwalk1, hr⟩
      apply Reach.succ k q r hreach ?_ hb1 hb2 hc
      have hadj' := hadj r hr
      obtain ⟨hrb1, hrb2⟩ : r.1 < b.len ∧ r.2 < b.len :=
        spellsWalk_mem_bounds hwalk1 (List.mem_of_mem_getLast? hr)
      exact mem_neighborsList_of_adjacent b hsq q r (adjacent_symm hadj')
        hrb1 hrb2

/-- `has_word` is exactly existence of a spelled walk, for words of
length at least 2 on square boards. -/
theorem has_word_iff_walk (b : Board) (hsq : b.Square) (w : List Nat)
    (hL : 2 ≤ w.length) :
    b.has_word w = true ↔ ∃ ps, SpellsWalk b ps w := by
  rw [has_word_iff_reach b w hL]
  have htake : w.take (w.length - 1 + 1) = w := by
    have he : w.length - 1 + 1 = w.length := by omega
    rw [he, List.take_length]
  constructor
  · intro ⟨p, hp⟩
    obtain ⟨ps, -, hwalk, -⟩ := (reach_iff_walk b hsq w (w.length - 1) p).1 hp
    rw [htake] at hwalk
    exact ⟨ps, hwalk⟩
  · intro ⟨ps, hwalk⟩
    have hlen : ps.length = w.length := List.Forall₂.length_eq hwalk.1
    have hne : ps ≠ [] := by
      intro h
      rw [h] at hlen
      simp at hlen
      omega
    refine ⟨ps.getLast hne, ?_⟩
    apply (reach_iff_walk b hsq w (w.length - 1) _).2
    refine ⟨ps, by omega, ?_, List.getLast?_eq_getLast ps hne⟩
    rw [htake]
    exact hwalk

/-! ## Claim C7 -/

/-- Counterexample to C7: on the parsed 1×1 board `"a"`, the length-1
word `"a"` has a one-position spelling sequence (the claim's right-hand
side holds), yet `has_word` returns `false`: the early `return true` sits
only in the `k > 0` branch, so a word of length 1 can never be reported.
-/
theorem c7_counterexample_single_letter :
    oneB.has_word [97] = false ∧ SpellsWalk oneB [(0, 0)] [97] := by
  refine ⟨by decide, ⟨?_, ?_⟩⟩
  · exact List.Forall₂.cons ⟨by decide, by decide, by decide⟩ List.Forall₂.nil
  · exact List.chain'_singleton (0, 0)

/-- C7 (amended): for every parsed (square) board and every word of
length ≥ 2, the approximate filter `has_word` returns `true` iff there
is a sequence of in-bounds positions, consecutively 8-adjacent and not
required to be distinct, whose letters spell the word.  (For words of
length 1 the code always answers `false`, so "non-empty" must be
strengthened to "length ≥ 2".) -/
theorem c7_amended_has_word_iff_walk (b : Board) (hsq : b.Square)
    (w : List Nat) (hL : 2 ≤ w.length) :
    b.has_word w = true ↔ ∃ ps, SpellsWalk b ps w :=
  has_word_iff_walk b hsq w hL

/-- Witness for C7 (amended) on the 3×3 board with the word `"ab"`. -/
theorem c7_amended_has_word_iff_walk_witness :
    threeB.has_word [97, 98] = true ↔ ∃ ps, SpellsWalk threeB ps [97, 98] :=
  c7_amended_has_word_iff_walk threeB threeB_square [97, 98] (by decide)

/-! ## The exact backtracking search (claims C2 and C6) -/

/-- Termination measure of the DFS stack: pushed items carry strictly
longer word slices, and one pop spawns at most 8 children. -/
def stackWeight (L : Nat) (stack : List DfsItem) : Nat :=
  (stack.map (fun it => 9 ^ (L - it.wlen))).sum

theorem dfsLoopF_cons_skip {b : Board} {w : List Nat} {fuel : Nat}
    {curr : DfsItem} {rest : List DfsItem}
    (h : w.get? (curr.wlen - 1) ≠ some (b.cell curr.x curr.y)) :
    dfsLoopF b w (fuel + 1) (curr :: rest) = dfsLoopF b w fuel rest := by
  show (if w.get? (curr.wlen - 1) ≠ some (b.cell curr.x curr.y) then
      dfsLoopF b w fuel rest
    else if curr.wlen = w.length then some true
    else dfsLoopF b w fuel ((dfsChildren b curr).reverse ++ rest)) =
    dfsLoopF b w fuel rest
  rw [if_pos h]

theorem dfsLoopF_cons_found {b : Board} {w : List Nat} {fuel : Nat}
    {curr : DfsItem} {rest : List DfsItem}
    (h1 : w.get? (curr.wlen - 1) = some (b.cell curr.x curr.y))
    (h2 : curr.wlen = w.length) :
    dfsLoopF b w (fuel + 1) (curr :: rest) = some true := by
  show (if w.get? (curr.wlen - 1) ≠ some (b.cell curr.x curr.y) then
      dfsLoopF b w fuel rest
    else if curr.wlen = w.length then some true
    else dfsLoopF b w fuel ((dfsChildren b curr).reverse ++ rest)) =
    some true
  rw [if_neg (fun hne => hne h1), if_pos h2]

theorem dfsLoopF_cons_push {b : Board} {w : List Nat} {fuel : Nat}
    {curr : DfsItem} {rest : List DfsItem}
    (h1 : w.get? (curr.wlen - 1) = some (b.cell curr.x curr.y))
    (h2 : curr.wlen ≠ w.length) :
    dfsLoopF b w (fuel + 1) (curr :: rest) =
      dfsLoopF b w fuel ((dfsChildren b curr).reverse ++ rest) := by
  show (if w.get? (curr.wlen - 1) ≠ some (b.cell curr.x curr.y) then
      dfsLoopF b w fuel rest
    else if curr.wlen = w.length then some true
    else dfsLoopF b w fuel ((dfsChildren b curr).reverse ++ rest)) =
    dfsLoopF b w fuel ((dfsChildren b curr).reverse ++ rest)
  rw [if_neg (fun hne => hne h1), if_neg h2]

/-- In the push branch the slice is strictly shorter than the word. -/
theorem push_wlen_lt {b : Board} {w : List Nat} {curr : DfsItem}
    (h1 : w.get? (curr.wlen - 1) = some (b.cell curr.x curr.y))
    (h2 : curr.wlen ≠ w.length) : curr.wlen < w.length := by
  have := (get?_isSome_iff w (curr.wlen - 1)).1 (by rw [h1]; rfl)
  omega

theorem dfsChildren_length_le (b : Board) (curr : DfsItem) :
    (dfsChildren b curr).length ≤ 8 := by
  unfold dfsChildren
  calc (List.filterMap _ (b.neighborsList (curr.x, curr.y))).length
      ≤ (b.neighborsList (curr.x, curr.y)).length :=
        List.length_filterMap_le _ _
    _ ≤ 8 := by
      rw [neighborsList_eq_filterMap]
      calc (DIRECTIONS.filterMap _).length ≤ DIRECTIONS.length :=
            List.length_filterMap_le _ _
        _ = 8 := by decide

theorem dfsChildren_wlen {b : Board} {curr child : DfsItem}
    (h : child ∈ dfsChildren b curr) : child.wlen = curr.wlen + 1 := by
  unfold dfsChildren at h
  obtain ⟨q, -, hq⟩ := List.mem_filterMap.1 h
  by_cases hv : (curr.visited.set curr.x curr.y true).get q.1 q.2 = true
  · rw [if_pos hv] at hq
    cases hq
  · rw [if_neg hv] at hq
    cases hq
    rfl

theorem stackWeight_append (L : Nat) (s1 s2 : List DfsItem) :
    stackWeight L (s1 ++ s2) = stackWeight L s1 + stackWeight L s2 := by
  unfold stackWeight
  rw [List.map_append, List.sum_append]

theorem stackWeight_children (L : Nat) (b : Board) (curr : DfsItem)
    (hlt : curr.wlen < L) :
    stackWeight L (dfsChildren b curr).reverse < 9 ^ (L - curr.wlen) := by
  have hle : ∀ s : List DfsItem, (∀ it ∈ s, it.wlen = curr.wlen + 1) →
      stackWeight L s = s.length * 9 ^ (L - (curr.wlen + 1)) := by
    intro s
    induction s with
    | nil =>
      intro _
      simp [stackWeight]
    | cons it rest ih =>
      intro h
      unfold stackWeight at ih ⊢
      rw [List.map_cons, List.sum_cons, ih (fun x hx => h x (List.mem_cons_of_mem it hx)),
        h it (List.mem_cons_self it rest), List.length_cons]
      ring
  rw [hle (dfsChildren b curr).reverse
    (fun it hit => dfsChildren_wlen (List.mem_reverse.1 hit))]
  have hlen : (dfsChildren b curr).reverse.length ≤ 8 := by
    rw [List.length_reverse]
    exact dfsChildren_length_le b curr
  have hpow : 9 ^ (L - curr.wlen) = 9 * 9 ^ (L - (curr.wlen + 1)) := by
    have : L - curr.wlen = (L - (curr.wlen + 1)) + 1 := by omega
    rw [this, pow_succ]
    ring
  rw [hpow]
  have h9 : 0 < 9 ^ (L - (curr.wlen + 1)) := Nat.pos_pow_of_pos _ (by omega)
  calc (dfsChildren b curr).reverse.length * 9 ^ (L - (curr.wlen + 1))
      ≤ 8 * 9 ^ (L - (curr.wlen + 1)) := Nat.mul_le_mul_right _ hlen
    _ < 9 * 9 ^ (L - (curr.wlen + 1)) := by
      exact (Nat.mul_lt_mul_right h9).2 (by omega)

/-- Sufficient fuel: the loop always terminates with an answer. -/
theorem dfsLoopF_total (b : Board) (w : List Nat) :
    ∀ (fuel : Nat) (stack : List DfsItem),
      stackWeight w.length stack < fuel →
      (dfsLoopF b w fuel stack).isSome := by
  intro fuel
  induction fuel with
  | zero =>
    intro stack h
    omega
  | succ f ih =>
    intro stack hw
    cases stack with
    | nil => rfl
    | cons curr rest =>
      have hwc : stackWeight w.length (curr :: rest) =
          9 ^ (w.length - curr.wlen) + stackWeight w.length rest := by
        unfold stackWeight
        rw [List.map_cons, List.sum_cons]
      have hpos : 0 < 9 ^ (w.length - curr.wlen) :=
        Nat.pos_pow_of_pos _ (by omega)
      by_cases h1 : w.get? (curr.wlen - 1) = some (b.cell curr.x curr.y)
      · by_cases h2 : curr.wlen = w.length
        · rw [dfsLoopF_cons_found h1 h2]
          rfl
        · rw [dfsLoopF_cons_push h1 h2]
          apply ih
          rw [stackWeight_append]
          have := stackWeight_children w.length b curr (push_wlen_lt h1 h2)
          omega
      · rw [dfsLoopF_cons_skip h1]
        apply ih
        omega

theorem Vec2.set_fields (v : Vec2) (x y : Nat) (val : Bool) :
    (v.set x y val).width = v.width ∧ (v.set x y val).height = v.height := by
  unfold Vec2.set
  cases v.idx x y <;> exact ⟨rfl, rfl⟩

/-- Invariant of a DFS stack item: the visited mask records exactly the
cells of a simple in-bounds walk spelling the consumed slice (all but
the item's own cell, which is not yet checked), and the item's cell is
fresh and adjacent to the walk's last cell. -/
def ItemOK (b : Board) (w : List Nat) (it : DfsItem) : Prop :=
  1 ≤ it.wlen ∧ it.wlen ≤ w.length ∧ it.x < b.len ∧ it.y < b.len ∧
  it.visited.width = b.len ∧ it.visited.height = b.len ∧ it.visited.WF ∧
  ∃ ps, ps.length = it.wlen - 1 ∧
    SpellsWalk b ps (w.take (it.wlen - 1)) ∧ ps.Nodup ∧
    (it.x, it.y) ∉ ps ∧
    (∀ a c, it.visited.get a c = true ↔ (a, c) ∈ ps) ∧
    (∀ q, ps.getLast? = some q → Adjacent q (it.x, it.y))

/-- Extracting the data of a pushed child. -/
theorem dfsChildren_mem {b : Board} {curr child : DfsItem}
    (h : child ∈ dfsChildren b curr) :
    ∃ q ∈ b.neighborsList (curr.x, curr.y),
      (curr.visited.set curr.x curr.y true).get q.1 q.2 = false ∧
      child = ⟨curr.visited.set curr.x curr.y true, q.1, q.2, curr.wlen + 1⟩ := by
  unfold dfsChildren at h
  obtain ⟨q, hqmem, hq⟩ := List.mem_filterMap.1 h
  by_cases hv : (curr.visited.set curr.x curr.y true).get q.1 q.2 = true
  · rw [if_pos hv] at hq
    cases hq
  · rw [if_neg hv] at hq
    cases hq
    exact ⟨q, hqmem, by simpa using hv, rfl⟩

/-- The children of an invariant-satisfying item satisfy the invariant. -/
theorem dfsChildren_itemOK {b : Board} {w : List Nat} {curr : DfsItem}
    (hok : ItemOK b w curr)
    (hlet : w.get? (curr.wlen - 1) = some (b.cell curr.x curr.y))
    (hlt : curr.wlen < w.length) :
    ∀ child ∈ dfsChildren b curr, ItemOK b w child := by
  intro child hchild
  obtain ⟨q, hqmem, hqfresh, hchildeq⟩ := dfsChildren_mem hchild
  obtain ⟨hadjq, hqb1, hqb2⟩ := adjacent_of_mem_neighborsList b _ q hqmem
  obtain ⟨hw1, hwL, hx, hy, hvw, hvh, hvwf, ps, hlen, hwalk, hnodup, hfresh,
    hvis, hadj⟩ := hok
  subst hchildeq
  have hvw' := (Vec2.set_fields curr.visited curr.x curr.y true).1
  have hvh' := (Vec2.set_fields curr.visited curr.x curr.y true).2
  have hvis' : ∀ a c, (curr.visited.set curr.x curr.y true).get a c = true ↔
      (a, c) ∈ ps ++ [(curr.x, curr.y)] := by
    intro a c
    by_cases heq : a = curr.x ∧ c = curr.y
    · obtain ⟨rfl, rfl⟩ := heq
      rw [Vec2.get_set_eq curr.visited curr.x curr.y true hvwf (by omega)
        (by omega)]
      simp
    · rw [Vec2.get_set_ne curr.visited curr.x curr.y a c true heq]
      rw [hvis a c]
      constructor
      · intro h
        exact List.mem_append.2 (Or.inl h)
      · intro h
        rcases List.mem_append.1 h with h' | h'
        · exact h'
        · exfalso
          rcases List.mem_singleton.1 h' with h''
          exact heq ⟨congrArg Prod.fst h'', congrArg Prod.snd h''⟩
  refine ⟨?_, ?_, hqb1, hqb2, ?_, ?_, Vec2.set_wf _ _ _ _ hvwf,
    ps ++ [(curr.x, curr.y)], ?_, ?_, ?_, ?_, hvis', ?_⟩
  · show 1 ≤ curr.wlen + 1
    omega
  · show curr.wlen + 1 ≤ w.length
    omega
  · show (curr.visited.set curr.x curr.y true).width = b.len
    rw [hvw']
    exact hvw
  · show (curr.visited.set curr.x curr.y true).height = b.len
    rw [hvh']
    exact hvh
  · show (ps ++ [(curr.x, curr.y)]).length = curr.wlen + 1 - 1
    rw [List.length_append, hlen]
    simp
    omega
  · show SpellsWalk b (ps ++ [(curr.x, curr.y)]) (w.take (curr.wlen + 1 - 1))
    have he : curr.wlen + 1 - 1 = (curr.wlen - 1) + 1 := by omega
    rw [he]
    exact spellsWalk_snoc b w ps (curr.wlen - 1) (curr.x, curr.y)
      (b.cell curr.x curr.y) hwalk hlet hx hy rfl hadj
  · rw [List.nodup_append]
    exact ⟨hnodup, List.nodup_singleton _, by
      intro a ha hb
      rcases List.mem_singleton.1 hb with rfl
      exact hfresh ha⟩
  · intro hmem
    have := (hvis' q.1 q.2).2 (by simpa using hmem)
    rw [hqfresh] at this
    cases this
  · intro r hr
    have hrq : r = (curr.x, curr.y) := by
      rw [List.getLast?_concat] at hr
      exact (Option.some.inj hr).symm
    subst hrq
    show Adjacent (curr.x, curr.y) (q.1, q.2)
    exact hadjq

/-- Soundness of the DFS loop: a `true` answer over an
invariant-satisfying stack yields a simple spelled path for the whole
word. -/
theorem dfsLoopF_sound (b : Board) (w : List Nat) (hL : 1 ≤ w.length) :
    ∀ (fuel : Nat) (stack : List DfsItem),
      dfsLoopF b w fuel stack = some true →
      (∀ it ∈ stack, ItemOK b w it) →
      ∃ ps, SpellsWalk b ps w ∧ ps.Nodup := by
  intro fuel
  induction fuel with
  | zero =>
    intro stack h
    cases h
  | succ f ih =>
    intro stack hres hstack
    cases stack with
    | nil => cases hres
    | cons curr rest =>
      have hok := hstack curr (List.mem_cons_self curr rest)
      by_cases h1 : w.get? (curr.wlen - 1) = some (b.cell curr.x curr.y)
      · by_cases h2 : curr.wlen = w.length
        · obtain ⟨hw1, hwL, hx, hy, -, -, -, ps, hlen, hwalk, hnodup, hfresh,
            -, hadj⟩ := hok
          refine ⟨ps ++ [(curr.x, curr.y)], ?_, ?_⟩
          · have he : w.take w.length = w := List.take_length w
            have he2 : (curr.wlen - 1) + 1 = w.length := by omega
            rw [← he, ← he2]
            exact spellsWalk_snoc b w ps (curr.wlen - 1) (curr.x, curr.y)
              (b.cell curr.x curr.y) hwalk h1 hx hy rfl hadj
          · rw [List.nodup_append]
            exact ⟨hnodup, List.nodup_singleton _, by
              intro a ha hb
              rcases List.mem_singleton.1 hb with rfl
              exact hfresh ha⟩
        · rw [dfsLoopF_cons_push h1 h2] at hres
          apply ih _ hres
          intro it hit
          rcases List.mem_append.1 hit with hch | hrest
          · exact dfsChildren_itemOK hok h1 (push_wlen_lt h1 h2) it
              (List.mem_reverse.1 hch)
          · exact hstack it (List.mem_cons_of_mem curr hrest)
      · rw [dfsLoopF_cons_skip h1] at hres
        exact ih rest hres (fun it hit => hstack it (List.mem_cons_of_mem curr hit))

/-- Decomposing a spelled walk at its first cell. -/
theorem spellsWalk_cons_elim {b : Board} {p : Nat × Nat}
    {qs : List (Nat × Nat)} {v : List Nat} (h : SpellsWalk b (p :: qs) v) :
    ∃ c cs, v = c :: cs ∧ p.1 < b.len ∧ p.2 < b.len ∧ b.cell p.1 p.2 = c ∧
      SpellsWalk b qs cs ∧ (∀ q, qs.head? = some q → Adjacent p q) := by
  obtain ⟨hfa, hch⟩ := h
  cases hfa with
  | cons h1 h2 =>
    rw [List.chain'_cons'] at hch
    refine ⟨_, _, rfl, h1.1, h1.2.1, h1.2.2, ⟨h2, hch.2⟩, ?_⟩
    intro q hq
    exact hch.1 q hq

/-- A stack item from which the word can still be completed by a fresh
simple walk. -/
def Promising (b : Board) (w : List Nat) (it : DfsItem) : Prop :=
  1 ≤ it.wlen ∧
  ∃ qs, SpellsWalk b ((it.x, it.y) :: qs) (w.drop (it.wlen - 1)) ∧
    ((it.x, it.y) :: qs).Nodup ∧
    (∀ q ∈ (it.x, it.y) :: qs, it.visited.get q.1 q.2 = false)

/-- Completeness of the DFS loop: as long as a promising item is on the
stack, the loop cannot answer `false`. -/
theorem dfsLoopF_complete (b : Board) (hsq : b.Square) (w : List Nat) :
    ∀ (fuel : Nat) (stack : List DfsItem) (r : Bool),
      dfsLoopF b w fuel stack = some r →
      (∃ it ∈ stack, Promising b w it) →
      r = true := by
  intro fuel
  induction fuel with
  | zero =>
    intro stack r h
    cases h
  | succ f ih =>
    intro stack r hres hprom
    cases stack with
    | nil =>
      obtain ⟨it, hit, -⟩ := hprom
      cases hit
    | cons curr rest =>
      obtain ⟨it, hit, hpit⟩ := hprom
      rcases List.mem_cons.1 hit with rfl | hrest
      · -- the promising item is on top
        obtain ⟨hw1, qs, hwalk, hnodup, hvisfalse⟩ := hpit
        obtain ⟨c, cs, hv, hb1, hb2, hcell, hwalk2, hheadadj⟩ :=
          spellsWalk_cons_elim hwalk
        have hlet : w.get? (it.wlen - 1) = some (b.cell it.x it.y) := by
          have h0 : (w.drop (it.wlen - 1)).get? 0 = some c := by
            rw [hv]
            rfl
          rw [List.get?_drop] at h0
          rw [hcell]
          simpa using h0
        by_cases hfound : it.wlen = w.length
        · rw [dfsLoopF_cons_found hlet hfound] at hres
          exact (Option.some.inj hres).symm
        · rw [dfsLoopF_cons_push hlet hfound] at hres
          have hlt := push_wlen_lt hlet hfound
          -- the remaining walk has at least two cells
          have hlen2 : qs.length + 1 = w.length - (it.wlen - 1) := by
            have := List.Forall₂.length_eq hwalk.1
            rw [List.length_drop] at this
            simpa using this
          cases qs with
          | nil =>
            exfalso
            simp at hlen2
            omega
          | cons q qs' =>
            set visited' := it.visited.set it.x it.y true with hvisited'
            set child : DfsItem := ⟨visited', q.1, q.2, it.wlen + 1⟩
              with hchild
            have hqne : (it.x, it.y) ≠ q := by
              intro he
              have := List.nodup_cons.1 hnodup
              exact this.1 (he ▸ List.mem_cons_self q qs')
            have hqfresh : visited'.get q.1 q.2 = false := by
              rw [hvisited', Vec2.get_set_ne]
              · exact hvisfalse q (List.mem_cons_of_mem _ (List.mem_cons_self q qs'))
              · intro hcon
                exact hqne (Prod.ext hcon.1.symm hcon.2.symm)
            have hqadj : Adjacent (it.x, it.y) q := hheadadj q rfl
            obtain ⟨hqb1, hqb2⟩ := spellsWalk_mem_bounds hwalk
              (List.mem_cons_of_mem _ (List.mem_cons_self q qs'))
            have hqmem : q ∈ b.neighborsList (it.x, it.y) :=
              mem_neighborsList_of_adjacent b hsq (it.x, it.y) q hqadj hqb1 hqb2
            have hchildmem : child ∈ dfsChildren b it := by
              unfold dfsChildren
              apply List.mem_filterMap.2
              refine ⟨q, hqmem, ?_⟩
              rw [if_neg (by rw [hqfresh]; simp)]
            have hchildprom : Promising b w child := by
              refine ⟨?_, qs', ?_, ?_, ?_⟩
              · show 1 ≤ it.wlen + 1
                omega
              · show SpellsWalk b ((q.1, q.2) :: qs') (w.drop (it.wlen + 1 - 1))
                obtain ⟨hcs, -, -⟩ := drop_cons_facts rfl hv
                have he2 : it.wlen + 1 - 1 = (it.wlen - 1) + 1 := by omega
                rw [he2, ← hcs]
                exact hwalk2
              · exact (List.nodup_cons.1 hnodup).2
              · intro r' hr'
                show (it.visited.set it.x it.y true).get r'.1 r'.2 = false
                rw [Vec2.get_set_ne]
                · exact hvisfalse r' (List.mem_cons_of_mem _ hr')
                · intro hcon
                  have hrp : r' = (it.x, it.y) := Prod.ext hcon.1 hcon.2
                  have := (List.nodup_cons.1 hnodup).1
                  exact this (hrp ▸ hr')
            apply ih _ r hres
            refine ⟨child, ?_, hchildprom⟩
            apply List.mem_append.2
            left
            rw [List.mem_reverse]
            exact hchildmem
      · -- the promising item is below the top
        by_cases h1 : w.get? (curr.wlen - 1) = some (b.cell curr.x curr.y)
        · by_cases h2 : curr.wlen = w.length
          · rw [dfsLoopF_cons_found h1 h2] at hres
            exact (Option.some.inj hres).symm
          · rw [dfsLoopF_cons_push h1 h2] at hres
            exact ih _ r hres ⟨it, List.mem_append.2 (Or.inr hrest), hpit⟩
        · rw [dfsLoopF_cons_skip h1] at hres
          exact ih _ r hres ⟨it, hrest, hpit⟩

/-- The start item of an in-bounds cell satisfies the stack invariant. -/
theorem startItem_itemOK (b : Board) (w : List Nat) (hL : 1 ≤ w.length)
    (i j : Nat) (hi : i < b.len) (hj : j < b.len) :
    ItemOK b w (b.startItem i j) := by
  refine ⟨Nat.le_refl 1, hL, hi, hj, rfl, rfl, Vec2.fill_wf _ _ _,
    [], rfl, ⟨List.Forall₂.nil, List.chain'_nil⟩, List.nodup_nil, ?_, ?_, ?_⟩
  · intro h
    cases h
  · intro a c
    simp [Board.startItem, Vec2.get_fill]
  · intro q hq
    cases hq

/-- The exact search of `solve_single_threaded` finds a word iff a simple
walk of pairwise-distinct adjacent cells spells it (soundness by the
`ItemOK` invariant, completeness by `Promising` plus fuel sufficiency). -/
theorem contains_word_iff_simple (b : Board) (hsq : b.Square) (w : List Nat)
    (hL : 1 ≤ w.length) :
    b.contains_word w = true ↔ ∃ ps, SpellsWalk b ps w ∧ ps.Nodup := by
  constructor
  · intro h
    unfold Board.contains_word at h
    obtain ⟨i, hi, h2⟩ := List.any_eq_true.1 h
    obtain ⟨j, hj, h3⟩ := List.any_eq_true.1 h2
    rw [List.mem_range] at hi
    rw [List.mem_range] at hj
    have hsome : dfsLoopF b w (9 ^ w.length) [b.startItem i j] = some true := by
      cases hd : dfsLoopF b w (9 ^ w.length) [b.startItem i j] with
      | none =>
        rw [hd] at h3
        cases h3
      | some v =>
        rw [hd] at h3
        cases v
        · cases h3
        · rfl
    refine dfsLoopF_sound b w hL _ _ hsome ?_
    intro it hit
    rcases List.mem_singleton.1 hit with rfl
    exact startItem_itemOK b w hL i j hi hj
  · intro hex
    obtain ⟨ps, hwalk, hnodup⟩ := hex
    cases ps with
    | nil =>
      exfalso
      have := List.Forall₂.length_eq hwalk.1
      simp at this
      omega
    | cons p qs =>
      obtain ⟨c, cs, hv, hb1, hb2, -, -, -⟩ := spellsWalk_cons_elim hwalk
      have hprom : Promising b w (b.startItem p.1 p.2) := by
        refine ⟨Nat.le_refl 1, qs, ?_, ?_, ?_⟩
        · show SpellsWalk b ((p.1, p.2) :: qs) (w.drop 0)
          rw [List.drop_zero]
          exact hwalk
        · exact hnodup
        · intro q hq
          simp [Board.startItem, Vec2.get_fill]
      have hweq : stackWeight w.length [b.startItem p.1 p.2] =
          9 ^ (w.length - 1) := by
        simp [stackWeight, Board.startItem]
      have hfuel : stackWeight w.length [b.startItem p.1 p.2] <
          9 ^ w.length := by
        rw [hweq]
        exact Nat.pow_lt_pow_right (by omega) (by omega)
      have hds := dfsLoopF_total b w (9 ^ w.length) [b.startItem p.1 p.2] hfuel
      obtain ⟨r, hr⟩ := Option.isSome_iff_exists.1 hds
      have hrt : r = true := dfsLoopF_complete b hsq w (9 ^ w.length) _ r hr
        ⟨b.startItem p.1 p.2, List.mem_singleton_self _, hprom⟩
      unfold Board.contains_word
      apply List.any_eq_true.2
      refine ⟨p.1, List.mem_range.2 hb1, ?_⟩
      apply List.any_eq_true.2
      refine ⟨p.2, List.mem_range.2 hb2, ?_⟩
      rw [hr, hrt]
      rfl

/-- C2: for every valid (square) board and every word of length ≥ 4 whose
letters all appear on the board, the exact backtracking search reports
the word as found iff a simple path (pairwise-distinct, consecutively
8-adjacent cells) spells the word. -/
theorem c2_exact_search_iff_simple_path (b : Board) (hsq : b.Square)
    (w : List Nat) (hL : 4 ≤ w.length)
    (hletters : b.contains_letters w = true) :
    b.contains_word w = true ↔ ∃ ps, SpellsSimple b ps w :=
  contains_word_iff_simple b hsq w (by omega)

theorem c2_exact_search_iff_simple_path_witness :
    threeB.Square ∧ 4 ≤ ([97, 98, 99, 102] : List Nat).length ∧
    threeB.contains_letters [97, 98, 99, 102] = true ∧
    (threeB.contains_word [97, 98, 99, 102] = true ↔
      ∃ ps, SpellsSimple threeB ps [97, 98, 99, 102]) :=
  ⟨threeB_square, by decide, by decide,
    c2_exact_search_iff_simple_path threeB threeB_square [97, 98, 99, 102]
      (by decide) (by decide)⟩

/-- C6 counterexample: on the 1x1 board "a", the exact search finds the
word "a" but the approximate filter rejects it (the filter's early
`return true` sits in the `k > 0` branch only). -/
theorem c6_counterexample_single_letter_filter :
    oneB.contains_word [97] = true ∧ oneB.has_word [97] = false := by
  decide

/-- C6 amended: on every parsed (square) board, for every word of length
≥ 2, if the exact no-reuse search finds the word then the approximate
filter `has_word` also accepts it — no false negatives except for
single-letter words. -/
theorem c6_amended_filter_no_false_negatives (b : Board) (hsq : b.Square)
    (w : List Nat) (hL : 2 ≤ w.length)
    (h : b.contains_word w = true) : b.has_word w = true := by
  obtain ⟨ps, hwalk, -⟩ :=
    (contains_word_iff_simple b hsq w (by omega)).1 h
  exact (has_word_iff_walk b hsq w hL).2 ⟨ps, hwalk⟩

theorem c6_amended_filter_no_false_negatives_witness :
    threeB.Square ∧ 2 ≤ ([98, 99] : List Nat).length ∧
    threeB.contains_word [98, 99] = true ∧ threeB.has_word [98, 99] = true :=
  ⟨threeB_square, by decide, by decide,
    c6_amended_filter_no_false_negatives threeB threeB_square [98, 99]
      (by decide) (by decide)⟩

end Boggle
